import Mathlib

/-!
# FurFusion worker: signed-token and webhook-authentication subsystem

Shallow embedding of the cryptographic core of `src/worker/src/index.ts`:

* `verifyStripeWebhookRaw` — HMAC-SHA-256 verification of the Stripe
  signature header (lines 1513–1544 of the source),
* `createReviewToken` / `verifyReviewToken` — the signed review-link token
  scheme (lines 1831–1865),
* the helpers `hmacHex`, `timingSafeEqualHex`, `base64urlEncode`,
  `base64urlDecode` (lines 1870–1898).

Modelling conventions:

* JavaScript strings are modelled as Lean `String`s (lists of Unicode scalar
  values).  All characters produced by the hex and base64 encoders are ASCII,
  where UTF-16 code units (`charCodeAt`) and scalar values coincide.
* Machine numbers are modelled as `Nat`/`Int` with explicit `% 2 ^ 32` where
  the SHA-256 arithmetic overflows.  JavaScript `Date.now()` returns an
  integral millisecond count (exact in IEEE doubles below `2 ^ 53`), so
  timestamps are `Nat` parameters `now` passed to the functions that read the
  clock.  JSON numbers are modelled as integers: every number the system
  itself writes is an integral millisecond timestamp.
* The `env` object is modelled by passing each secret as a `String`
  parameter; the JavaScript falsiness test `!env.X` on an optional string
  becomes `secret = ""`.
* Functions that can `throw` return `Except String` with the thrown message;
  functions that cannot throw are total.
-/

namespace FurFusion

/-! ## Generic string helpers (JavaScript `split`, `trim`) -/

/-- JavaScript `s.split(sep)` for a single-character separator:
`"a,b,".split(",") = ["a","b",""]` and `"".split(",") = [""]`. -/
def splitOnChar (sep : Char) : List Char → List (List Char)
  | [] => [[]]
  | c :: rest =>
    if c = sep then [] :: splitOnChar sep rest
    else
      match splitOnChar sep rest with
      | [] => [[c]]
      | seg :: segs => (c :: seg) :: segs

/-- ASCII whitespace, as trimmed by JavaScript `String.prototype.trim`
(the JS definition also covers rarer Unicode spaces, which do not occur in
the signature headers this models). -/
def isJsWs (c : Char) : Bool :=
  c = ' ' || c = '\t' || c = '\n' || c = '\r' || Char.ofNat 11 = c || Char.ofNat 12 = c

/-- JavaScript `s.trim()` on a character list. -/
def trimChars (l : List Char) : List Char :=
  ((l.dropWhile isJsWs).reverse.dropWhile isJsWs).reverse

/-- Lookup in an association list where *later* bindings override earlier
ones, as assignments to a JavaScript object do. -/
def lookupLast {α : Type} : List (String × α) → String → Option α
  | [], _ => none
  | (k, v) :: rest, key =>
    match lookupLast rest key with
    | some r => some r
    | none => if k = key then some v else none

/-! ## Hex encoding

`b.toString(16).padStart(2, "0")` over the bytes of a digest, joined —
i.e. two lowercase hex digits per byte. -/

/-- The sixteen lowercase hex digits. -/
def hexDigits : List Char := "0123456789abcdef".data

/-- The lowercase hex digit of `n % 16`. -/
def hexDigitChar (n : Nat) : Char := hexDigits.getD (n % 16) '0'

/-- Lowercase hex encoding of a byte list, two digits per byte. -/
def hexOfBytes (bytes : List Nat) : List Char :=
  bytes.flatMap (fun b => [hexDigitChar (b / 16), hexDigitChar b])

theorem hexOfBytes_length (bytes : List Nat) :
    (hexOfBytes bytes).length = 2 * bytes.length := by
  induction bytes with
  | nil => rfl
  | cons b rest ih => simp [hexOfBytes, List.flatMap_cons] at ih ⊢; omega

theorem hexDigitChar_mem (n : Nat) : hexDigitChar n ∈ hexDigits := by
  have h : n % 16 < 16 := Nat.mod_lt _ (by decide)
  have : ∀ m, m < 16 → hexDigits.getD m '0' ∈ hexDigits := by decide
  exact this _ h

theorem hexDigitChar_ne_dot (n : Nat) : hexDigitChar n ≠ '.' := by
  have hmem := hexDigitChar_mem n
  have hall : ∀ c ∈ hexDigits, c ≠ '.' := by decide
  exact hall _ hmem

theorem hexOfBytes_no_dot (bytes : List Nat) :
    ∀ c ∈ hexOfBytes bytes, c ≠ '.' := by
  intro c hc
  simp only [hexOfBytes, List.mem_flatMap] at hc
  obtain ⟨b, _, hmem⟩ := hc
  simp only [List.mem_cons, List.not_mem_nil, or_false] at hmem
  rcases hmem with h | h <;> · subst h; exact hexDigitChar_ne_dot _

/-! ## UTF-8

`base64urlEncode` is `btoa(unescape(encodeURIComponent(str)))` in the source:
percent-encode the UTF-8 bytes, turn each `%XX` back into a Latin-1 character
and base64 that byte string — net effect, base64 over the UTF-8 encoding.
`base64urlDecode` ends in `decodeURIComponent(escape(atob(b64)))`, the
inverse: a strict UTF-8 decode that throws (here: `none`) on invalid input.
-/

/-- UTF-8 encoding of one Unicode scalar value, as a list of byte values. -/
def utf8EncodeChar (c : Char) : List Nat :=
  let n := c.toNat
  if n < 0x80 then [n]
  else if n < 0x800 then [0xC0 + n / 64, 0x80 + n % 64]
  else if n < 0x10000 then [0xE0 + n / 4096, 0x80 + n / 64 % 64, 0x80 + n % 64]
  else [0xF0 + n / 262144, 0x80 + n / 4096 % 64, 0x80 + n / 64 % 64, 0x80 + n % 64]

/-- UTF-8 encoding of a string as a list of byte values (what
`new TextEncoder().encode(s)` and `unescape(encodeURIComponent(s))`
produce). -/
def utf8Encode (s : String) : List Nat := s.data.flatMap utf8EncodeChar

/-!
Strict UTF-8 decoding: `none` on truncated, overlong, surrogate or
out-of-range sequences — the cases where `decodeURIComponent` throws
`URIError`.  `utf8Cont2`/`utf8Cont3`/`utf8Cont4` read the continuation bytes
of a 2-, 3- or 4-byte sequence whose lead byte `b` has been consumed.
-/

mutual

def utf8Decode : List Nat → Option (List Char)
  | [] => some []
  | b :: rest =>
    if b < 0x80 then (utf8Decode rest).map (Char.ofNat b :: ·)
    else if b < 0xC2 then none
    else if b < 0xE0 then utf8Cont2 b rest
    else if b < 0xF0 then utf8Cont3 b rest
    else if b < 0xF5 then utf8Cont4 b rest
    else none

def utf8Cont2 (b : Nat) : List Nat → Option (List Char)
  | b2 :: r =>
    if 0x80 ≤ b2 ∧ b2 < 0xC0 then
      (utf8Decode r).map (Char.ofNat ((b - 0xC0) * 64 + (b2 - 0x80)) :: ·)
    else none
  | [] => none

def utf8Cont3 (b : Nat) : List Nat → Option (List Char)
  | b2 :: b3 :: r =>
    if (0x80 ≤ b2 ∧ b2 < 0xC0) ∧ (0x80 ≤ b3 ∧ b3 < 0xC0) ∧
        (b = 0xE0 → 0xA0 ≤ b2) ∧ (b = 0xED → b2 < 0xA0) then
      (utf8Decode r).map
        (Char.ofNat ((b - 0xE0) * 4096 + (b2 - 0x80) * 64 + (b3 - 0x80)) :: ·)
    else none
  | _ => none

def utf8Cont4 (b : Nat) : List Nat → Option (List Char)
  | b2 :: b3 :: b4 :: r =>
    if (0x80 ≤ b2 ∧ b2 < 0xC0) ∧ (0x80 ≤ b3 ∧ b3 < 0xC0) ∧ (0x80 ≤ b4 ∧ b4 < 0xC0) ∧
        (b = 0xF0 → 0x90 ≤ b2) ∧ (b = 0xF4 → b2 < 0x90) then
      (utf8Decode r).map
        (Char.ofNat ((b - 0xF0) * 262144 + (b2 - 0x80) * 4096 +
          (b3 - 0x80) * 64 + (b4 - 0x80)) :: ·)
    else none
  | _ => none

end

theorem utf8Decode_encodeChar (c : Char) (tail : List Nat) :
    utf8Decode (utf8EncodeChar c ++ tail) = (utf8Decode tail).map (c :: ·) := by
  have hv : c.toNat < 0xd800 ∨ (0xdfff < c.toNat ∧ c.toNat < 0x110000) := c.valid
  have hofnat : Char.ofNat c.toNat = c := Char.ofNat_toNat c
  unfold utf8EncodeChar
  by_cases h1 : c.toNat < 0x80
  · simp only [if_pos h1, List.cons_append, List.nil_append]
    rw [utf8Decode]
    simp only [if_pos h1, hofnat]
  · by_cases h2 : c.toNat < 0x800
    · simp only [if_neg h1, if_pos h2, List.cons_append, List.nil_append]
      rw [utf8Decode]
      have e1 : ¬ (0xC0 + c.toNat / 64 < 0x80) := by omega
      have e2 : ¬ (0xC0 + c.toNat / 64 < 0xC2) := by omega
      have e3 : 0xC0 + c.toNat / 64 < 0xE0 := by omega
      have e4 : 0x80 ≤ 0x80 + c.toNat % 64 ∧ 0x80 + c.toNat % 64 < 0xC0 := by omega
      rw [if_neg e1, if_neg e2, if_pos e3, utf8Cont2, if_pos e4]
      have : (0xC0 + c.toNat / 64 - 0xC0) * 64 + (0x80 + c.toNat % 64 - 0x80) = c.toNat := by
        omega
      rw [this, hofnat]
    · by_cases h3 : c.toNat < 0x10000
      · simp only [if_neg h1, if_neg h2, if_pos h3, List.cons_append, List.nil_append]
        rw [utf8Decode]
        have e1 : ¬ (0xE0 + c.toNat / 4096 < 0x80) := by omega
        have e2 : ¬ (0xE0 + c.toNat / 4096 < 0xC2) := by omega
        have e3 : ¬ (0xE0 + c.toNat / 4096 < 0xE0) := by omega
        have e4 : 0xE0 + c.toNat / 4096 < 0xF0 := by omega
        have e5 : (0x80 ≤ 0x80 + c.toNat / 64 % 64 ∧ 0x80 + c.toNat / 64 % 64 < 0xC0) ∧
            (0x80 ≤ 0x80 + c.toNat % 64 ∧ 0x80 + c.toNat % 64 < 0xC0) ∧
            (0xE0 + c.toNat / 4096 = 0xE0 → 0xA0 ≤ 0x80 + c.toNat / 64 % 64) ∧
            (0xE0 + c.toNat / 4096 = 0xED → 0x80 + c.toNat / 64 % 64 < 0xA0) := by
          refine ⟨by omega, by omega, ?_, ?_⟩ <;> omega
        rw [if_neg e1, if_neg e2, if_neg e3, if_pos e4, utf8Cont3, if_pos e5]
        have : (0xE0 + c.toNat / 4096 - 0xE0) * 4096 + (0x80 + c.toNat / 64 % 64 - 0x80) * 64 +
            (0x80 + c.toNat % 64 - 0x80) = c.toNat := by omega
        rw [this, hofnat]
      · simp only [if_neg h1, if_neg h2, if_neg h3, List.cons_append, List.nil_append]
        rw [utf8Decode]
        have e1 : ¬ (0xF0 + c.toNat / 262144 < 0x80) := by omega
        have e2 : ¬ (0xF0 + c.toNat / 262144 < 0xC2) := by omega
        have e3 : ¬ (0xF0 + c.toNat / 262144 < 0xE0) := by omega
        have e4 : ¬ (0xF0 + c.toNat / 262144 < 0xF0) := by omega
        have e5 : 0xF0 + c.toNat / 262144 < 0xF5 := by omega
        have e6 : (0x80 ≤ 0x80 + c.toNat / 4096 % 64 ∧ 0x80 + c.toNat / 4096 % 64 < 0xC0) ∧
            (0x80 ≤ 0x80 + c.toNat / 64 % 64 ∧ 0x80 + c.toNat / 64 % 64 < 0xC0) ∧
            (0x80 ≤ 0x80 + c.toNat % 64 ∧ 0x80 + c.toNat % 64 < 0xC0) ∧
            (0xF0 + c.toNat / 262144 = 0xF0 → 0x90 ≤ 0x80 + c.toNat / 4096 % 64) ∧
            (0xF0 + c.toNat / 262144 = 0xF4 → 0x80 + c.toNat / 4096 % 64 < 0x90) := by
          refine ⟨by omega, by omega, by omega, ?_, ?_⟩ <;> omega
        rw [if_neg e1, if_neg e2, if_neg e3, if_neg e4, if_pos e5, utf8Cont4, if_pos e6]
        have : (0xF0 + c.toNat / 262144 - 0xF0) * 262144 +
            (0x80 + c.toNat / 4096 % 64 - 0x80) * 4096 +
            (0x80 + c.toNat / 64 % 64 - 0x80) * 64 + (0x80 + c.toNat % 64 - 0x80) = c.toNat := by
          omega
        rw [this, hofnat]

theorem utf8Decode_encode_append (l : List Char) (tail : List Nat) :
    utf8Decode (l.flatMap utf8EncodeChar ++ tail) = (utf8Decode tail).map (l ++ ·) := by
  induction l with
  | nil => simp
  | cons c rest ih =>
    simp only [List.flatMap_cons, List.append_assoc]
    rw [utf8Decode_encodeChar, ih]
    cases utf8Decode tail <;> simp

/-- The UTF-8 round trip: decoding the encoding of any string recovers it. -/
theorem utf8Decode_utf8Encode (s : String) : utf8Decode (utf8Encode s) = some s.data := by
  have := utf8Decode_encode_append s.data []
  simpa [utf8Decode, utf8Encode] using this

/-! ## Base64 (`btoa` / `atob`) and the URL-safe variant -/

/-- The standard base64 alphabet. -/
def base64Chars : List Char :=
  "ABCDEFGHIJKLMNOPQRSTUVWXYZabcdefghijklmnopqrstuvwxyz0123456789+/".data

/-- The base64 character of a 6-bit group. -/
def b64c (n : Nat) : Char := base64Chars.getD (n % 64) 'A'

/-- `btoa`: base64 encoding of a byte list, with `=` padding. -/
def btoaEncode : List Nat → List Char
  | [] => []
  | [a] => [b64c (a / 4), b64c (a % 4 * 16), '=', '=']
  | [a, b] => [b64c (a / 4), b64c (a % 4 * 16 + b / 16), b64c (b % 16 * 4), '=']
  | a :: b :: c :: rest =>
    b64c (a / 4) :: b64c (a % 4 * 16 + b / 16) :: b64c (b % 16 * 4 + c / 64) ::
      b64c (c % 64) :: btoaEncode rest

/-- The 6-bit value of a base64 character, `none` for a non-alphabet
character (which makes `atob` throw). -/
def b64v (c : Char) : Option Nat :=
  let i := base64Chars.findIdx (fun x => x == c)
  if i < 64 then some i else none

/-- Decode groups of base64 characters after whitespace and padding removal;
per the forgiving-base64 algorithm a final group of two characters yields one
byte and a final group of three yields two, leftover bits discarded. -/
def atobCore : List Char → Option (List Nat)
  | [] => some []
  | [a, b] =>
    match b64v a, b64v b with
    | some x, some y => some [x * 4 + y / 16]
    | _, _ => none
  | [a, b, c] =>
    match b64v a, b64v b, b64v c with
    | some x, some y, some z => some [x * 4 + y / 16, y % 16 * 16 + z / 4]
    | _, _, _ => none
  | a :: b :: c :: d :: rest =>
    match b64v a, b64v b, b64v c, b64v d with
    | some x, some y, some z, some w =>
      match atobCore rest with
      | some bytes =>
        some ((x * 4 + y / 16) :: (y % 16 * 16 + z / 4) :: (z % 4 * 64 + w) :: bytes)
      | none => none
    | _, _, _, _ => none
  | [_] => none

/-- The ASCII whitespace removed by forgiving-base64 decoding. -/
def isAtobWs (c : Char) : Bool :=
  c = ' ' || c = '\t' || c = '\n' || c = '\r' || Char.ofNat 12 = c

/-- Remove one or two trailing `=` of a whitespace-free base64 string whose
length is a multiple of four. -/
def dropTrailingPad (l : List Char) : List Char :=
  if l.getLast? = some '=' then
    let l1 := l.dropLast
    if l1.getLast? = some '=' then l1.dropLast else l1
  else l

/-- `atob`: forgiving-base64 decoding; `none` where `atob` throws
`InvalidCharacterError`. -/
def atobDecode (l : List Char) : Option (List Nat) :=
  let l1 := l.filter (fun c => ¬ isAtobWs c)
  let l2 := if l1.length % 4 = 0 then dropTrailingPad l1 else l1
  if l2.length % 4 = 1 then none else atobCore l2

/-- `b64.replace(/\+/g, "-")`. -/
def repPlus (c : Char) : Char := if c = '+' then '-' else c

/-- `.replace(/\//g, "_")`. -/
def repSlash (c : Char) : Char := if c = '/' then '_' else c

/-- The decoder's replacement of every dash by a plus. -/
def unrepMinus (c : Char) : Char := if c = '-' then '+' else c

/-- `.replace(/_/g, "/")`. -/
def unrepUnderscore (c : Char) : Char := if c = '_' then '/' else c

/-- `/=+$/g` removal: drop the trailing run of `=`. -/
def stripTrailingEq (l : List Char) : List Char :=
  (l.reverse.dropWhile (fun c => c == '=')).reverse

/-- `base64urlEncode` (source lines 1890–1893):
`btoa(unescape(encodeURIComponent(str)))` — base64 of the UTF-8 bytes —
then `+ → -`, `/ → _` and trailing `=` stripped. -/
def base64urlEncode (str : String) : String :=
  let b64 := btoaEncode (utf8Encode str)
  String.mk (stripTrailingEq ((b64.map repPlus).map repSlash))

/-- `base64urlDecode` (source lines 1895–1898): undo the character
replacements, re-pad with `"===".slice((b64url.length + 3) % 4)`, `atob`,
then UTF-8-decode (`decodeURIComponent(escape(...))`).  `none` where the
source throws. -/
def base64urlDecode (b64url : String) : Option String :=
  let b64 := ((b64url.data.map unrepMinus).map unrepUnderscore) ++
    List.drop ((b64url.length + 3) % 4) ['=', '=', '=']
  match atobDecode b64 with
  | none => none
  | some bytes => (utf8Decode bytes).map String.mk

/-! ### Base64 round trip -/

/-- Proof artifact: the unpadded part of `btoaEncode`. -/
def btoaNoPad : List Nat → List Char
  | [] => []
  | [a] => [b64c (a / 4), b64c (a % 4 * 16)]
  | [a, b] => [b64c (a / 4), b64c (a % 4 * 16 + b / 16), b64c (b % 16 * 4)]
  | a :: b :: c :: rest =>
    b64c (a / 4) :: b64c (a % 4 * 16 + b / 16) :: b64c (b % 16 * 4 + c / 64) ::
      b64c (c % 64) :: btoaNoPad rest

theorem b64c_mem (n : Nat) : b64c n ∈ base64Chars := by
  have h : n % 64 < 64 := Nat.mod_lt _ (by decide)
  have : ∀ m, m < 64 → base64Chars.getD m 'A' ∈ base64Chars := by decide
  exact this _ h

theorem mem_btoaNoPad (bytes : List Nat) : ∀ c ∈ btoaNoPad bytes, c ∈ base64Chars := by
  induction bytes using btoaNoPad.induct with
  | case1 => simp [btoaNoPad]
  | case2 a => simp [btoaNoPad, b64c_mem]
  | case3 a b => simp [btoaNoPad, b64c_mem]
  | case4 a b c rest ih =>
    simp only [btoaNoPad, List.mem_cons]
    rintro x (rfl | rfl | rfl | rfl | hx)
    any_goals exact b64c_mem _
    exact ih x hx

theorem btoaEncode_eq_noPad (bytes : List Nat) :
    btoaEncode bytes = btoaNoPad bytes ++ List.replicate ((3 - bytes.length % 3) % 3) '=' := by
  induction bytes using btoaEncode.induct with
  | case1 => rfl
  | case2 a => rfl
  | case3 a b => rfl
  | case4 a b c rest ih =>
    have hm : (rest.length + 3) % 3 = rest.length % 3 := by omega
    simp only [btoaEncode, btoaNoPad, ih, List.length_cons, List.cons_append]
    have : (rest.length + 1 + 1 + 1) % 3 = rest.length % 3 := by omega
    rw [this]

theorem btoaNoPad_length (bytes : List Nat) :
    (btoaNoPad bytes).length =
      bytes.length / 3 * 4 + (if bytes.length % 3 = 0 then 0 else bytes.length % 3 + 1) := by
  induction bytes using btoaNoPad.induct with
  | case1 => rfl
  | case2 a => simp [btoaNoPad]
  | case3 a b => simp [btoaNoPad]
  | case4 a b c rest ih =>
    simp only [btoaNoPad, List.length_cons, ih]
    have h1 : (rest.length + 1 + 1 + 1) % 3 = rest.length % 3 := by omega
    have h2 : (rest.length + 1 + 1 + 1) / 3 = rest.length / 3 + 1 := by omega
    rw [h1, h2]
    omega

theorem eq_not_mem_btoaNoPad (bytes : List Nat) : '=' ∉ btoaNoPad bytes := by
  intro hmem
  have := mem_btoaNoPad bytes '=' hmem
  revert this
  decide

theorem dropWhile_replicate_append {p : Char → Bool} {a : Char} (hp : p a = true)
    (k : Nat) (l : List Char) :
    (List.replicate k a ++ l).dropWhile p = l.dropWhile p := by
  induction k with
  | zero => simp
  | succ n ih => simp [List.replicate_succ, List.dropWhile, hp, ih]

theorem stripTrailingEq_append_replicate (x : List Char) (k : Nat) (hx : '=' ∉ x) :
    stripTrailingEq (x ++ List.replicate k '=') = x := by
  unfold stripTrailingEq
  rw [List.reverse_append, List.reverse_replicate,
    dropWhile_replicate_append (by decide) k x.reverse]
  cases hrev : x.reverse with
  | nil => simp at hrev; simp [hrev]
  | cons c r =>
    have hc : c ∈ x := by
      have : c ∈ x.reverse := by rw [hrev]; exact List.mem_cons_self _ _
      simpa using this
    have : c ≠ '=' := fun h => hx (h ▸ hc)
    rw [List.dropWhile_cons_of_neg (by simpa using this)]
    rw [← hrev, List.reverse_reverse]

theorem b64v_b64c (n : Nat) (h : n < 64) : b64v (b64c n) = some n := by
  revert h
  revert n
  decide

theorem atobCore_btoaNoPad (bytes : List Nat) (hb : ∀ b ∈ bytes, b < 256) :
    atobCore (btoaNoPad bytes) = some bytes := by
  induction bytes using btoaNoPad.induct with
  | case1 => rfl
  | case2 a =>
    have ha : a < 256 := hb a (by simp)
    rw [btoaNoPad, atobCore, b64v_b64c _ (by omega), b64v_b64c _ (by omega)]
    simp only [Option.some.injEq, List.cons.injEq, and_true]
    omega
  | case3 a b =>
    have ha : a < 256 := hb a (by simp)
    have hbb : b < 256 := hb b (by simp)
    rw [btoaNoPad, atobCore, b64v_b64c _ (by omega), b64v_b64c _ (by omega),
      b64v_b64c _ (by omega)]
    simp only [Option.some.injEq, List.cons.injEq, and_true]
    constructor <;> omega
  | case4 a b c rest ih =>
    have ha : a < 256 := hb a (by simp)
    have hbb : b < 256 := hb b (by simp)
    have hc : c < 256 := hb c (by simp)
    have hrest : ∀ x ∈ rest, x < 256 := fun x hx => hb x (by simp [hx])
    cases hnp : btoaNoPad rest with
    | nil =>
      rw [btoaNoPad, hnp, atobCore, b64v_b64c _ (by omega), b64v_b64c _ (by omega),
        b64v_b64c _ (by omega), b64v_b64c _ (by omega)]
      rw [hnp] at ih
      rw [ih hrest]
      simp only [Option.some.injEq, List.cons.injEq, and_true]
      refine ⟨by omega, by omega, by omega⟩
    | cons x xs =>
      rw [btoaNoPad, hnp, atobCore, b64v_b64c _ (by omega), b64v_b64c _ (by omega),
        b64v_b64c _ (by omega), b64v_b64c _ (by omega)]
      rw [hnp] at ih
      rw [ih hrest]
      simp only [Option.some.injEq, List.cons.injEq, and_true]
      refine ⟨by omega, by omega, by omega⟩

theorem btoaEncode_length_mod4 (bytes : List Nat) : (btoaEncode bytes).length % 4 = 0 := by
  induction bytes using btoaEncode.induct with
  | case1 => rfl
  | case2 a => simp [btoaEncode]
  | case3 a b => simp [btoaEncode]
  | case4 a b c rest ih => simp only [btoaEncode, List.length_cons]; omega

theorem mem_btoaEncode (bytes : List Nat) :
    ∀ c ∈ btoaEncode bytes, c ∈ base64Chars ∨ c = '=' := by
  intro c hc
  rw [btoaEncode_eq_noPad] at hc
  rcases List.mem_append.mp hc with h | h
  · exact Or.inl (mem_btoaNoPad bytes c h)
  · exact Or.inr (List.eq_of_mem_replicate h)

theorem filter_ws_btoaEncode (bytes : List Nat) :
    (btoaEncode bytes).filter (fun c => ¬ isAtobWs c) = btoaEncode bytes := by
  apply List.filter_eq_self.mpr
  intro c hc
  rcases mem_btoaEncode bytes c hc with h | h
  · revert h
    have : ∀ x ∈ base64Chars, (decide (¬ isAtobWs x)) = true := by decide
    exact this c
  · subst h; decide

theorem getLast_ne_of_not_mem (x : List Char) (hx : '=' ∉ x) :
    x.getLast? ≠ some '=' := by
  intro h
  exact hx (List.mem_of_mem_getLast? h)

theorem dropTrailingPad_noPad (x : List Char) (hx : '=' ∉ x) :
    dropTrailingPad x = x := by
  unfold dropTrailingPad
  rw [if_neg (getLast_ne_of_not_mem x hx)]

theorem dropTrailingPad_one (x : List Char) (hx : '=' ∉ x) :
    dropTrailingPad (x ++ ['=']) = x := by
  unfold dropTrailingPad
  rw [List.getLast?_concat, if_pos rfl]
  simp only [List.dropLast_concat]
  rw [if_neg (getLast_ne_of_not_mem x hx)]

theorem dropTrailingPad_two (x : List Char) :
    dropTrailingPad (x ++ ['=', '=']) = x := by
  unfold dropTrailingPad
  have h : x ++ ['=', '='] = (x ++ ['=']) ++ ['='] := by simp
  rw [h, List.getLast?_concat, if_pos rfl]
  simp only [List.dropLast_concat]
  rw [List.getLast?_concat, if_pos rfl]

theorem dropTrailingPad_btoaEncode (bytes : List Nat) :
    dropTrailingPad (btoaEncode bytes) = btoaNoPad bytes := by
  have hne : '=' ∉ btoaNoPad bytes := eq_not_mem_btoaNoPad bytes
  rw [btoaEncode_eq_noPad]
  by_cases h0 : bytes.length % 3 = 0
  · have h : (3 - bytes.length % 3) % 3 = 0 := by omega
    rw [h, List.replicate_zero, List.append_nil]
    exact dropTrailingPad_noPad _ hne
  · by_cases h1 : bytes.length % 3 = 1
    · have h : (3 - bytes.length % 3) % 3 = 2 := by omega
      rw [h]
      show dropTrailingPad (btoaNoPad bytes ++ ['=', '=']) = btoaNoPad bytes
      exact dropTrailingPad_two _
    · have h : (3 - bytes.length % 3) % 3 = 1 := by omega
      rw [h]
      show dropTrailingPad (btoaNoPad bytes ++ ['=']) = btoaNoPad bytes
      exact dropTrailingPad_one _ hne

theorem btoaNoPad_length_mod4 (bytes : List Nat) :
    (btoaNoPad bytes).length % 4 ≠ 1 := by
  have h := btoaNoPad_length bytes
  by_cases h0 : bytes.length % 3 = 0
  · rw [h, if_pos h0]; omega
  · rw [h, if_neg h0]
    have : bytes.length % 3 < 3 := Nat.mod_lt _ (by decide)
    omega

theorem atobDecode_btoaEncode (bytes : List Nat) (hb : ∀ b ∈ bytes, b < 256) :
    atobDecode (btoaEncode bytes) = some bytes := by
  unfold atobDecode
  simp only [filter_ws_btoaEncode, btoaEncode_length_mod4, dropTrailingPad_btoaEncode,
    if_true, eq_self_iff_true]
  rw [if_neg (btoaNoPad_length_mod4 bytes)]
  exact atobCore_btoaNoPad bytes hb

theorem utf8EncodeChar_lt_256 (c : Char) : ∀ b ∈ utf8EncodeChar c, b < 256 := by
  have hv : c.toNat < 0xd800 ∨ (0xdfff < c.toNat ∧ c.toNat < 0x110000) := c.valid
  intro b hb
  unfold utf8EncodeChar at hb
  by_cases h1 : c.toNat < 0x80
  · rw [if_pos h1] at hb
    simp only [List.mem_singleton] at hb
    omega
  · by_cases h2 : c.toNat < 0x800
    · rw [if_neg h1, if_pos h2] at hb
      simp only [List.mem_cons, List.not_mem_nil, or_false] at hb
      rcases hb with h | h <;> omega
    · by_cases h3 : c.toNat < 0x10000
      · rw [if_neg h1, if_neg h2, if_pos h3] at hb
        simp only [List.mem_cons, List.not_mem_nil, or_false] at hb
        rcases hb with h | h | h <;> omega
      · rw [if_neg h1, if_neg h2, if_neg h3] at hb
        simp only [List.mem_cons, List.not_mem_nil, or_false] at hb
        rcases hb with h | h | h | h <;> omega

theorem utf8Encode_lt_256 (s : String) : ∀ b ∈ utf8Encode s, b < 256 := by
  intro b hb
  simp only [utf8Encode, List.mem_flatMap] at hb
  obtain ⟨c, _, hmem⟩ := hb
  exact utf8EncodeChar_lt_256 c b hmem

theorem repSlash_repPlus_eq (c : Char) (h : c ∈ base64Chars) :
    repSlash (repPlus c) ≠ '=' := by
  revert h
  have : ∀ x ∈ base64Chars, repSlash (repPlus x) ≠ '=' := by decide
  exact this c

theorem unrep_rep_eq (c : Char) (h : c ∈ base64Chars) :
    unrepUnderscore (unrepMinus (repSlash (repPlus c))) = c := by
  revert h
  have : ∀ x ∈ base64Chars, unrepUnderscore (unrepMinus (repSlash (repPlus x))) = x := by
    decide
  exact this c

/-- The characters `base64urlEncode` actually emits: the `repSlash ∘ repPlus`
image of the unpadded base64 encoding. -/
theorem base64urlEncode_eq (s : String) :
    (base64urlEncode s).data =
      ((btoaNoPad (utf8Encode s)).map repPlus).map repSlash := by
  unfold base64urlEncode
  show stripTrailingEq (((btoaEncode (utf8Encode s)).map repPlus).map repSlash) = _
  rw [btoaEncode_eq_noPad, List.map_append, List.map_append, List.map_replicate,
    List.map_replicate]
  have hrp : repPlus '=' = '=' := rfl
  have hrs : repSlash '=' = '=' := rfl
  rw [hrp, hrs]
  apply stripTrailingEq_append_replicate
  intro hmem
  simp only [List.mem_map] at hmem
  obtain ⟨c1, hc1, hrep⟩ := hmem
  obtain ⟨c0, hc0, hrep0⟩ := hc1
  have := repSlash_repPlus_eq c0 (mem_btoaNoPad _ _ hc0)
  rw [hrep0] at this
  exact this hrep

theorem base64urlEncode_length (s : String) :
    (base64urlEncode s).length = (btoaNoPad (utf8Encode s)).length := by
  show (base64urlEncode s).data.length = _
  rw [base64urlEncode_eq]
  simp

/-- The base64url round trip: decoding an encoded string recovers it. -/
theorem base64urlDecode_encode (s : String) :
    base64urlDecode (base64urlEncode s) = some s := by
  unfold base64urlDecode
  have hmap : (((base64urlEncode s).data.map unrepMinus).map unrepUnderscore) =
      btoaNoPad (utf8Encode s) := by
    rw [base64urlEncode_eq, List.map_map, List.map_map, List.map_map]
    conv_rhs => rw [← List.map_id (btoaNoPad (utf8Encode s))]
    apply List.map_congr_left
    intro c hc
    exact unrep_rep_eq c (mem_btoaNoPad _ _ hc)
  rw [hmap]
  have hpad : List.drop (((base64urlEncode s).length + 3) % 4) ['=', '=', '='] =
      List.replicate ((3 - (utf8Encode s).length % 3) % 3) '=' := by
    rw [base64urlEncode_length]
    have hlen := btoaNoPad_length (utf8Encode s)
    by_cases h0 : (utf8Encode s).length % 3 = 0
    · rw [hlen, if_pos h0]
      have h1 : ((utf8Encode s).length / 3 * 4 + 0 + 3) % 4 = 3 := by omega
      have h2 : (3 - (utf8Encode s).length % 3) % 3 = 0 := by omega
      rw [h1, h2]
      rfl
    · by_cases h1 : (utf8Encode s).length % 3 = 1
      · rw [hlen, if_neg h0, h1]
        have ha : ((utf8Encode s).length / 3 * 4 + (1 + 1) + 3) % 4 = 1 := by omega
        rw [ha]
        rfl
      · have h2 : (utf8Encode s).length % 3 = 2 := by
          have : (utf8Encode s).length % 3 < 3 := Nat.mod_lt _ (by decide)
          omega
        rw [hlen, if_neg h0, h2]
        have ha : ((utf8Encode s).length / 3 * 4 + (2 + 1) + 3) % 4 = 2 := by omega
        rw [ha]
        rfl
  rw [hpad, ← btoaEncode_eq_noPad]
  show (match atobDecode (btoaEncode (utf8Encode s)) with
    | none => none
    | some bytes => Option.map String.mk (utf8Decode bytes)) = some s
  rw [atobDecode_btoaEncode (utf8Encode s) (utf8Encode_lt_256 s)]
  show Option.map String.mk (utf8Decode (utf8Encode s)) = some s
  rw [utf8Decode_utf8Encode]
  rfl

/-! ## SHA-256 and HMAC

`crypto.subtle` with `{ name: "HMAC", hash: "SHA-256" }` over the UTF-8
bytes of secret and message (source lines 1528–1538 and 1870–1881),
implemented per FIPS 180-4 / RFC 2104 on `Nat` words reduced mod `2 ^ 32`. -/

/-- Right rotation of a 32-bit word. -/
def rotr32 (x n : Nat) : Nat := x / 2 ^ n + x % 2 ^ n * 2 ^ (32 - n)

/-- Logical right shift. -/
def shr32 (x n : Nat) : Nat := x / 2 ^ n

/-- 32-bit complement. -/
def bnot32 (x : Nat) : Nat := x ^^^ 0xFFFFFFFF

def smallSigma0 (x : Nat) : Nat := rotr32 x 7 ^^^ rotr32 x 18 ^^^ shr32 x 3

def smallSigma1 (x : Nat) : Nat := rotr32 x 17 ^^^ rotr32 x 19 ^^^ shr32 x 10

def bigSigma0 (x : Nat) : Nat := rotr32 x 2 ^^^ rotr32 x 13 ^^^ rotr32 x 22

def bigSigma1 (x : Nat) : Nat := rotr32 x 6 ^^^ rotr32 x 11 ^^^ rotr32 x 25

/-! The SHA-256 round constants (FIPS 180-4 §4.2.2), in rows of eight. -/

def sha256Krow0 : List Nat :=
  [0x428a2f98, 0x71374491, 0xb5c0fbcf, 0xe9b5dba5,
   0x3956c25b, 0x59f111f1, 0x923f82a4, 0xab1c5ed5]

def sha256Krow1 : List Nat :=
  [0xd807aa98, 0x12835b01, 0x243185be, 0x550c7dc3,
   0x72be5d74, 0x80deb1fe, 0x9bdc06a7, 0xc19bf174]

def sha256Krow2 : List Nat :=
  [0xe49b69c1, 0xefbe4786, 0x0fc19dc6, 0x240ca1cc,
   0x2de92c6f, 0x4a7484aa, 0x5cb0a9dc, 0x76f988da]

def sha256Krow3 : List Nat :=
  [0x983e5152, 0xa831c66d, 0xb00327c8, 0xbf597fc7,
   0xc6e00bf3, 0xd5a79147, 0x06ca6351, 0x14292967]

def sha256Krow4 : List Nat :=
  [0x27b70a85, 0x2e1b2138, 0x4d2c6dfc, 0x53380d13,
   0x650a7354, 0x766a0abb, 0x81c2c92e, 0x92722c85]

def sha256Krow5 : List Nat :=
  [0xa2bfe8a1, 0xa81a664b, 0xc24b8b70, 0xc76c51a3,
   0xd192e819, 0xd6990624, 0xf40e3585, 0x106aa070]

def sha256Krow6 : List Nat :=
  [0x19a4c116, 0x1e376c08, 0x2748774c, 0x34b0bcb5,
   0x391c0cb3, 0x4ed8aa4a, 0x5b9cca4f, 0x682e6ff3]

def sha256Krow7 : List Nat :=
  [0x748f82ee, 0x78a5636f, 0x84c87814, 0x8cc70208,
   0x90befffa, 0xa4506ceb, 0xbef9a3f7, 0xc67178f2]

def sha256K : List Nat :=
  sha256Krow0 ++ sha256Krow1 ++ sha256Krow2 ++ sha256Krow3 ++
    sha256Krow4 ++ sha256Krow5 ++ sha256Krow6 ++ sha256Krow7

/-- The eight 32-bit words of a SHA-256 hash state. -/
structure Hash8 where
  v0 : Nat
  v1 : Nat
  v2 : Nat
  v3 : Nat
  v4 : Nat
  v5 : Nat
  v6 : Nat
  v7 : Nat

/-- The SHA-256 initial hash value (FIPS 180-4 §5.3.3). -/
def sha256Init : Hash8 :=
  ⟨0x6a09e667, 0xbb67ae85, 0x3c6ef372, 0xa54ff53a,
   0x510e527f, 0x9b05688c, 0x1f83d9ab, 0x5be0cd19⟩

/-- Big-endian 32-bit words of a byte list. -/
def wordsOfBytes : List Nat → List Nat
  | a :: b :: c :: d :: rest => (a * 2 ^ 24 + b * 2 ^ 16 + c * 2 ^ 8 + d) :: wordsOfBytes rest
  | _ => []

/-- Big-endian bytes of a 32-bit word. -/
def wordBytes (w : Nat) : List Nat :=
  [w / 2 ^ 24 % 256, w / 2 ^ 16 % 256, w / 2 ^ 8 % 256, w % 256]

/-- Extend the 16 block words by `k` further schedule words. -/
def sha256Extend : Nat → List Nat → List Nat
  | 0, w => w
  | k + 1, w =>
    let n := w.length
    let wNew := (smallSigma1 (w.getD (n - 2) 0) + w.getD (n - 7) 0 +
      smallSigma0 (w.getD (n - 15) 0) + w.getD (n - 16) 0) % 2 ^ 32
    sha256Extend k (w ++ [wNew])

/-- One SHA-256 compression round for a (constant, schedule-word) pair. -/
def sha256Round (st : Hash8) (kw : Nat × Nat) : Hash8 :=
  let ch := st.v4 &&& st.v5 ^^^ bnot32 st.v4 &&& st.v6
  let maj := st.v0 &&& st.v1 ^^^ st.v0 &&& st.v2 ^^^ st.v1 &&& st.v2
  let t1 := (st.v7 + bigSigma1 st.v4 + ch + kw.1 + kw.2) % 2 ^ 32
  let t2 := (bigSigma0 st.v0 + maj) % 2 ^ 32
  ⟨(t1 + t2) % 2 ^ 32, st.v0, st.v1, st.v2, (st.v3 + t1) % 2 ^ 32, st.v4, st.v5, st.v6⟩

/-- Compress one 64-byte block into the running hash state. -/
def sha256Block (st : Hash8) (block : List Nat) : Hash8 :=
  let w := sha256Extend 48 (wordsOfBytes block)
  let r := (sha256K.zip w).foldl sha256Round st
  ⟨(st.v0 + r.v0) % 2 ^ 32, (st.v1 + r.v1) % 2 ^ 32, (st.v2 + r.v2) % 2 ^ 32,
   (st.v3 + r.v3) % 2 ^ 32, (st.v4 + r.v4) % 2 ^ 32, (st.v5 + r.v5) % 2 ^ 32,
   (st.v6 + r.v6) % 2 ^ 32, (st.v7 + r.v7) % 2 ^ 32⟩

/-- SHA-256 message padding: `0x80`, zeros, then the 64-bit big-endian
bit length. -/
def sha256Pad (msg : List Nat) : List Nat :=
  let r := msg.length % 64
  let zeros := if r < 56 then 55 - r else 119 - r
  let bitLen := msg.length * 8
  msg ++ [0x80] ++ List.replicate zeros 0 ++
    [bitLen / 2 ^ 56 % 256, bitLen / 2 ^ 48 % 256, bitLen / 2 ^ 40 % 256,
     bitLen / 2 ^ 32 % 256, bitLen / 2 ^ 24 % 256, bitLen / 2 ^ 16 % 256,
     bitLen / 2 ^ 8 % 256, bitLen % 256]

/-- Split into 64-byte blocks; the fuel argument is an upper bound on the
number of blocks and makes the recursion structural. -/
def chunks64 : Nat → List Nat → List (List Nat)
  | 0, _ => []
  | _, [] => []
  | f + 1, l => l.take 64 :: chunks64 f (l.drop 64)

/-- SHA-256 of a byte list. -/
def sha256 (msg : List Nat) : List Nat :=
  let padded := sha256Pad msg
  let final := (chunks64 padded.length padded).foldl sha256Block sha256Init
  wordBytes final.v0 ++ wordBytes final.v1 ++ wordBytes final.v2 ++ wordBytes final.v3 ++
    wordBytes final.v4 ++ wordBytes final.v5 ++ wordBytes final.v6 ++ wordBytes final.v7

/-- HMAC-SHA-256 (RFC 2104, block size 64) of byte lists. -/
def hmacSha256 (key msg : List Nat) : List Nat :=
  let k0 := if key.length > 64 then sha256 key else key
  let kPad := k0 ++ List.replicate (64 - k0.length) 0
  let ipad := kPad.map (fun b => b ^^^ 0x36)
  let opad := kPad.map (fun b => b ^^^ 0x5C)
  sha256 (opad ++ sha256 (ipad ++ msg))

/-- `hmacHex` (source lines 1870–1881): lowercase-hex HMAC-SHA-256 of the
UTF-8 encodings of secret and message. -/
def hmacHex (secret message : String) : String :=
  String.mk (hexOfBytes (hmacSha256 (utf8Encode secret) (utf8Encode message)))

theorem sha256_length (msg : List Nat) : (sha256 msg).length = 32 := by
  simp [sha256, wordBytes]

theorem hmacHex_length (secret message : String) : (hmacHex secret message).length = 64 := by
  show (hexOfBytes (hmacSha256 (utf8Encode secret) (utf8Encode message))).length = 64
  rw [hexOfBytes_length]
  show 2 * (sha256 _).length = 64
  rw [sha256_length]

theorem hmacHex_no_dot (secret message : String) :
    ∀ c ∈ (hmacHex secret message).data, c ≠ '.' :=
  fun c hc => hexOfBytes_no_dot _ c hc

theorem hmacHex_ne_empty (secret message : String) : hmacHex secret message ≠ "" := by
  intro h
  have := hmacHex_length secret message
  rw [h] at this
  simp at this

/-! ## Constant-time hex comparison (source lines 1883–1888)

`charCodeAt` yields UTF-16 code units; the comparison is applied to hex
digests (pure ASCII), where code units and the scalar values of `Char.toNat`
coincide, so the XOR accumulation is modelled on `Char.toNat`. -/

/-- `timingSafeEqualHex`: length check, then one pass XOR-accumulating every
character pair, with no early exit. -/
def timingSafeEqualHex (a b : String) : Bool :=
  if a.length ≠ b.length then false
  else (a.data.zip b.data).foldl (fun out p => out ||| (p.1.toNat ^^^ p.2.toNat)) 0 == 0

/-- The number of loop iterations `timingSafeEqualHex` performs: the same
fold with the body replaced by a counter. -/
def timingSafeEqualHexSteps (a b : String) : Nat :=
  if a.length ≠ b.length then 0
  else (a.data.zip b.data).foldl (fun k _ => k + 1) 0

/-! ## JSON

`JSON.stringify` / `JSON.parse`, restricted to integer numbers: the only
numbers this system writes are integral millisecond timestamps, which IEEE
doubles represent exactly below `2 ^ 53`.  A fractional or exponent-notation
literal makes this model's parse fail where JavaScript would produce a
non-integral double. -/

/-- JSON values produced by `JSON.parse`. -/
inductive Json where
  | null : Json
  | bool (b : Bool) : Json
  | num (n : Int) : Json
  | str (s : String) : Json
  | arr (elems : List Json) : Json
  | obj (fields : List (String × Json)) : Json

/-- The decimal digits. -/
def decDigits : List Char := "0123456789".data

/-- The decimal digit character of `d % 10`. -/
def decDigitChar (d : Nat) : Char := decDigits.getD (d % 10) '0'

/-- Decimal digits of `n`, least significant first; the fuel argument (any
bound ≥ `n`) makes the recursion structural. -/
def digitsRevAux : Nat → Nat → List Nat
  | 0, _ => []
  | fuel + 1, n => if n = 0 then [] else n % 10 :: digitsRevAux fuel (n / 10)

/-- Decimal notation of a natural number. -/
def natToChars (n : Nat) : List Char :=
  if n = 0 then ['0'] else ((digitsRevAux n n).reverse.map decDigitChar)

/-- JavaScript number-to-string for integral values (`String(n)` and
`JSON.stringify(n)` agree on integers). -/
def jsIntToChars (n : Int) : List Char :=
  if n < 0 then '-' :: natToChars n.natAbs else natToChars n.toNat

/-- `JSON.stringify` string escaping: quote, backslash, the five named
control escapes, `\u00XX` for other control characters, everything else
verbatim. -/
def escapeChar (c : Char) : List Char :=
  if c = '"' then ['\\', '"']
  else if c = '\\' then ['\\', '\\']
  else if c.toNat = 8 then ['\\', 'b']
  else if c.toNat = 9 then ['\\', 't']
  else if c.toNat = 10 then ['\\', 'n']
  else if c.toNat = 12 then ['\\', 'f']
  else if c.toNat = 13 then ['\\', 'r']
  else if c.toNat < 32 then
    ['\\', 'u', '0', '0', hexDigitChar (c.toNat / 16), hexDigitChar c.toNat]
  else [c]

/-- A JSON string literal: escaped body between double quotes. -/
def printStr (s : String) : List Char := '"' :: s.data.flatMap escapeChar ++ ['"']

/-- Comma-join pre-rendered pieces. -/
def joinComma : List (List Char) → List Char
  | [] => []
  | [x] => x
  | x :: y :: xs => x ++ ',' :: joinComma (y :: xs)

/-!
`JSON.stringify` (no indentation): object members in insertion order, no
whitespace.
-/

mutual

def jsonPrint : Json → List Char
  | Json.null => ['n', 'u', 'l', 'l']
  | Json.bool true => ['t', 'r', 'u', 'e']
  | Json.bool false => ['f', 'a', 'l', 's', 'e']
  | Json.num n => jsIntToChars n
  | Json.str s => printStr s
  | Json.arr xs => '[' :: (joinComma (jsonPrintList xs) ++ [']'])
  | Json.obj fs => '{' :: (joinComma (jsonPrintFields fs) ++ ['}'])

def jsonPrintList : List Json → List (List Char)
  | [] => []
  | x :: xs => jsonPrint x :: jsonPrintList xs

def jsonPrintFields : List (String × Json) → List (List Char)
  | [] => []
  | (k, v) :: fs => (printStr k ++ ':' :: jsonPrint v) :: jsonPrintFields fs

end

/-- JSON whitespace. -/
def isJsonWs (c : Char) : Bool := c = ' ' || c = '\t' || c = '\n' || c = '\r'

/-- Skip insignificant whitespace. -/
def skipWs (l : List Char) : List Char := l.dropWhile isJsonWs

/-- The single-character string escapes. -/
def unescapeChar (c : Char) : Option Char :=
  if c = '"' then some '"'
  else if c = '\\' then some '\\'
  else if c = '/' then some '/'
  else if c = 'b' then some (Char.ofNat 8)
  else if c = 'f' then some (Char.ofNat 12)
  else if c = 'n' then some '\n'
  else if c = 'r' then some '\r'
  else if c = 't' then some '\t'
  else none

/-- Value of a hex digit (either case), as in `\uXXXX` escapes. -/
def hexVal (c : Char) : Option Nat :=
  if '0' ≤ c ∧ c ≤ '9' then some (c.toNat - 48)
  else if 'a' ≤ c ∧ c ≤ 'f' then some (c.toNat - 87)
  else if 'A' ≤ c ∧ c ≤ 'F' then some (c.toNat - 55)
  else none

/-! Parse the body of a string literal up to the closing quote, returning
the content and the remaining input.  (`\uXXXX` escapes denoting surrogate
halves are mapped through `Char.ofNat`; this model does not combine
surrogate pairs, which no output of `JSON.stringify` in this system
contains.)
-/

mutual

def parseStringBody : List Char → Option (List Char × List Char)
  | [] => none
  | c :: rest =>
    if c = '"' then some ([], rest)
    else if c = '\\' then parseEsc rest
    else if c.toNat < 32 then none
    else
      match parseStringBody rest with
      | some (cs, r) => some (c :: cs, r)
      | none => none

def parseEsc : List Char → Option (List Char × List Char)
  | [] => none
  | e :: rest2 =>
    if e = 'u' then parseUEsc rest2
    else
      match unescapeChar e with
      | some ec =>
        match parseStringBody rest2 with
        | some (cs, r) => some (ec :: cs, r)
        | none => none
      | none => none

def parseUEsc : List Char → Option (List Char × List Char)
  | h1 :: h2 :: h3 :: h4 :: rest3 =>
    match hexVal h1, hexVal h2, hexVal h3, hexVal h4 with
    | some a, some b, some c2, some d =>
      match parseStringBody rest3 with
      | some (cs, r) => some (Char.ofNat (a * 4096 + b * 256 + c2 * 16 + d) :: cs, r)
      | none => none
    | _, _, _, _ => none
  | _ => none

end

/-- Collect a run of decimal digits (as values) and the remaining input. -/
def parseDigits : List Char → List Nat × List Char
  | [] => ([], [])
  | c :: rest =>
    if c.isDigit then
      let (ds, r) := parseDigits rest
      ((c.toNat - 48) :: ds, r)
    else ([], c :: rest)

/-- Numeric value of a big-endian digit list. -/
def digitsValNat (ds : List Nat) : Nat := ds.foldl (fun a d => a * 10 + d) 0

/-- Parse an unsigned integer literal: digit run with no leading zeros and
no fraction or exponent following — see the module comment on the integer
restriction. -/
def parseNumCore (l2 : List Char) : Option (Nat × List Char) :=
  match parseDigits l2 with
  | ([], _) => none
  | (d :: ds, r) =>
    if d = 0 ∧ ds ≠ [] then none
    else
      match r with
      | c :: _ => if c = '.' ∨ c = 'e' ∨ c = 'E' then none else some (digitsValNat (d :: ds), r)
      | [] => some (digitsValNat (d :: ds), [])

/-- Parse an integer JSON number token (optional minus sign). -/
def parseNumberTok (l : List Char) : Option (Json × List Char) :=
  match l with
  | c :: rest =>
    if c = '-' then
      match parseNumCore rest with
      | some (v, r) => some (Json.num (-(v : Int)), r)
      | none => none
    else
      match parseNumCore (c :: rest) with
      | some (v, r) => some (Json.num (v : Int), r)
      | none => none
  | [] => none

/-!
The recursive-descent value parser.  The fuel argument only bounds the
recursion depth to make it structural; `jsonParse` passes `2 * length + 2`,
which the call structure (at least one input character consumed per two fuel
units) never exhausts.
-/

mutual

def parseVal : Nat → List Char → Option (Json × List Char)
  | 0, _ => none
  | fuel + 1, input =>
    match skipWs input with
    | [] => none
    | c :: rest =>
      if c = '"' then
        (parseStringBody rest).bind (fun p => some (Json.str (String.mk p.1), p.2))
      else if c = '{' then
        match skipWs rest with
        | c2 :: r2 =>
          if c2 = '}' then some (Json.obj [], r2)
          else (parseMembers fuel (c2 :: r2)).bind (fun p => some (Json.obj p.1, p.2))
        | [] => none
      else if c = '[' then
        match skipWs rest with
        | c2 :: r2 =>
          if c2 = ']' then some (Json.arr [], r2)
          else (parseElems fuel (c2 :: r2)).bind (fun p => some (Json.arr p.1, p.2))
        | [] => none
      else if c = 't' then
        match rest with
        | 'r' :: 'u' :: 'e' :: r => some (Json.bool true, r)
        | _ => none
      else if c = 'f' then
        match rest with
        | 'a' :: 'l' :: 's' :: 'e' :: r => some (Json.bool false, r)
        | _ => none
      else if c = 'n' then
        match rest with
        | 'u' :: 'l' :: 'l' :: r => some (Json.null, r)
        | _ => none
      else parseNumberTok (c :: rest)

def parseMembers : Nat → List Char → Option (List (String × Json) × List Char)
  | 0, _ => none
  | fuel + 1, input =>
    match skipWs input with
    | c0 :: rest =>
      if c0 = '"' then
        (parseStringBody rest).bind (fun kp =>
          match skipWs kp.2 with
          | c1 :: r2 =>
            if c1 = ':' then
              (parseVal fuel r2).bind (fun vp =>
                match skipWs vp.2 with
                | c2 :: r4 =>
                  if c2 = ',' then
                    (parseMembers fuel r4).bind (fun mp =>
                      some ((String.mk kp.1, vp.1) :: mp.1, mp.2))
                  else if c2 = '}' then some ([(String.mk kp.1, vp.1)], r4)
                  else none
                | [] => none)
            else none
          | [] => none)
      else none
    | [] => none

def parseElems : Nat → List Char → Option (List Json × List Char)
  | 0, _ => none
  | fuel + 1, input =>
    (parseVal fuel input).bind (fun vp =>
      match skipWs vp.2 with
      | c1 :: r2 =>
        if c1 = ',' then
          (parseElems fuel r2).bind (fun ep => some (vp.1 :: ep.1, ep.2))
        else if c1 = ']' then some ([vp.1], r2)
        else none
      | [] => none)

end

/-- `JSON.parse`: one value, trailing whitespace only; `none` where it
throws `SyntaxError`. -/
def jsonParse (s : String) : Option Json :=
  match parseVal (2 * s.length + 2) s.data with
  | some (v, rest) => if skipWs rest = [] then some v else none
  | none => none

/-! ## JavaScript coercions used by the verifier

`String(x)`, `Number(x)`, falsiness and `x.f` property access on parsed JSON
values.  `Number` on strings is modelled for integer notation (the only
numbers this system produces); non-numeric text is NaN (`none`). -/

/-- JavaScript falsiness of a JSON value (`undefined` is handled separately
as `Option.none` at use sites). -/
def jsFalsy : Json → Bool
  | Json.null => true
  | Json.bool b => !b
  | Json.num n => n == 0
  | Json.str s => s == ""
  | Json.arr _ => false
  | Json.obj _ => false

/-- Property access `x.f`: `none` is `undefined` (non-objects from
`JSON.parse` carry no own properties; later duplicate keys win). -/
def jsField : Json → String → Option Json
  | Json.obj fs, k => lookupLast fs k
  | _, _ => none

/-- `x || d` for a possibly-`undefined` value. -/
def jsOr (x : Option Json) (dflt : Json) : Json :=
  match x with
  | some v => if jsFalsy v then dflt else v
  | none => dflt

/-!
`String(x)` on JSON values; an array joins its members' strings with commas,
`null` members becoming empty.
-/

mutual

def jsToString : Json → String
  | Json.str s => s
  | Json.num n => String.mk (jsIntToChars n)
  | Json.bool b => if b then "true" else "false"
  | Json.null => "null"
  | Json.arr xs => String.mk (joinComma (jsArrElems xs))
  | Json.obj _ => "[object Object]"

def jsArrElems : List Json → List (List Char)
  | [] => []
  | x :: xs =>
    (match x with
      | Json.null => []
      | y => (jsToString y).data) :: jsArrElems xs

end

/-- `Number(s)` for a string: empty or blank is `0`, optionally signed
decimal notation its value, anything else NaN (`none`).  (JavaScript also
accepts hex/float/exponent notation there; this system only ever reads
integral timestamps.) -/
def jsStringToInt (s : String) : Option Int :=
  match trimChars s.data with
  | [] => some 0
  | '-' :: ds =>
    if ds ≠ [] ∧ ds.all Char.isDigit then some (-(digitsValNat (ds.map (·.toNat - 48)) : Int))
    else none
  | '+' :: ds =>
    if ds ≠ [] ∧ ds.all Char.isDigit then some (digitsValNat (ds.map (·.toNat - 48)) : Int)
    else none
  | ds =>
    if ds.all Char.isDigit then some (digitsValNat (ds.map (·.toNat - 48)) : Int)
    else none

/-- `Number(x)` on JSON values; `none` is NaN.  Arrays and objects go
through their string conversion, as `ToPrimitive` does. -/
def jsToNumber : Json → Option Int
  | Json.num n => some n
  | Json.bool b => some (if b then 1 else 0)
  | Json.null => some 0
  | Json.str s => jsStringToInt s
  | Json.arr xs => jsStringToInt (jsToString (Json.arr xs))
  | Json.obj fs => jsStringToInt (jsToString (Json.obj fs))

/-- `email.toLowerCase()` (ASCII case mapping; the addresses this system
handles are ASCII). -/
def jsToLowerCase (s : String) : String := String.mk (s.data.map Char.toLower)

/-! ## The review-link token (source lines 1827–1865) -/

/-- The fixed 45-day validity window in milliseconds:
`45 * 24 * 60 * 60 * 1000`. -/
def reviewTokenWindowMs : Nat := 45 * 24 * 60 * 60 * 1000

/-- The signed payload object `{ order_id, email: email.toLowerCase(), exp }`
built by `createReviewToken`. -/
def reviewTokenPayload (order_id email : String) (now : Nat) : Json :=
  Json.obj [("order_id", Json.str order_id),
    ("email", Json.str (jsToLowerCase email)),
    ("exp", Json.num ((now : Int) + (reviewTokenWindowMs : Int)))]

/-- `createReviewToken` (source lines 1831–1841): throws on a missing
secret, otherwise returns
`base64url(JSON.stringify(payload)) + "." + hmacHex(secret, payload64)`
with `exp = Date.now() + 45 days`. -/
def createReviewToken (secret order_id email : String) (now : Nat) : Except String String :=
  if secret = "" then Except.error "Missing REVIEW_LINK_SECRET"
  else
    let payloadStr := String.mk (jsonPrint (reviewTokenPayload order_id email now))
    let payloadB64 := base64urlEncode payloadStr
    let sigHex := hmacHex secret payloadB64
    Except.ok (payloadB64 ++ "." ++ sigHex)

/-- The first two `.`-separated segments of a token — what the destructuring
`const [payloadB64, sigHex] = String(token || "").split(".")` binds, `none`
when either is missing or empty (the `!payloadB64 || !sigHex` guard). -/
def tokenHalves (token : String) : Option (String × String) :=
  match splitOnChar '.' token.data with
  | payloadB64 :: sigHex :: _ =>
    if payloadB64 = [] ∨ sigHex = [] then none
    else some (String.mk payloadB64, String.mk sigHex)
  | _ => none

/-- The payload JSON of a token: base64url-decode the payload half and
`JSON.parse` it — the part of `verifyReviewToken` inside `try`/`catch`. -/
def tokenPayloadJson (token : String) : Option Json :=
  match tokenHalves token with
  | some (payloadB64, _) => (base64urlDecode payloadB64).bind jsonParse
  | none => none

/-- The payload checks of `verifyReviewToken` (source lines 1859–1864):
falsiness guard, `String(payload.order_id || "") !== String(order_id || "")`
(for a string argument `String(order_id || "")` is the argument itself),
then `exp = Number(payload.exp || 0)` with the finiteness and
`Date.now() > exp` tests. -/
def reviewPayloadChecks (payload : Json) (order_id : String) (now : Nat) : Bool :=
  if jsFalsy payload then false
  else if jsToString (jsOr (jsField payload "order_id") (Json.str "")) ≠
      (if order_id = "" then "" else order_id) then false
  else
    match jsToNumber (jsOr (jsField payload "exp") (Json.num 0)) with
    | none => false
    | some exp => if (now : Int) > exp then false else true

/-- The body of `verifyReviewToken` after the split (source lines 1849–1864):
recompute the HMAC of the payload half, compare in constant time with the
signature half, then decode/parse inside `try`/`catch` and run the payload
checks. -/
def verifyTokenParts (secret payloadB64 sigHex order_id : String) (now : Nat) : Bool :=
  if ¬ timingSafeEqualHex (hmacHex secret payloadB64) sigHex then false
  else
    match (base64urlDecode payloadB64).bind jsonParse with
    | none => false
    | some payload => reviewPayloadChecks payload order_id now

/-- `verifyReviewToken` (source lines 1843–1865).  Total: every failure
path, including decode and parse exceptions, returns `false`. -/
def verifyReviewToken (secret token order_id : String) (now : Nat) : Bool :=
  if secret = "" then false
  else
    match tokenHalves token with
    | none => false
    | some pq => verifyTokenParts secret pq.1 pq.2 order_id now

/-! ## The Stripe webhook verifier (source lines 1510–1544) -/

/-- Parse the `Stripe-Signature` header: split on commas, each segment split
on `=`, both halves trimmed, kept only when both are nonempty; a later
binding of the same key overrides an earlier one (object assignment). -/
def stripeParts (stripeSignature : String) : List (String × String) :=
  (splitOnChar ',' stripeSignature.data).foldl (fun acc seg =>
    match splitOnChar '=' seg with
    | k :: v :: _ =>
      let k2 := trimChars k
      let v2 := trimChars v
      if k2 ≠ [] ∧ v2 ≠ [] then acc ++ [(String.mk k2, String.mk v2)] else acc
    | _ => acc) []

/-- `verifyStripeWebhookRaw` (source lines 1513–1544): throws on a missing
secret; fails closed when the header lacks `t` or `v1`; otherwise compares
`hmacHex(secret, t + "." + rawText)` with `v1` by length check plus the
same XOR-accumulating loop as `timingSafeEqualHex` (inlined in the source,
lines 1540–1543). -/
def verifyStripeWebhookRaw (secret stripeSignature rawText : String) : Except String Bool :=
  if secret = "" then Except.error "Missing STRIPE_WEBHOOK_SECRET"
  else
    let parts := stripeParts stripeSignature
    match lookupLast parts "t", lookupLast parts "v1" with
    | some t, some v1 =>
      let signedPayload := t ++ "." ++ rawText
      let sigHex := hmacHex secret signedPayload
      if sigHex.length ≠ v1.length then Except.ok false
      else
        Except.ok
          ((sigHex.data.zip v1.data).foldl (fun out p => out ||| (p.1.toNat ^^^ p.2.toNat)) 0
            == 0)
    | _, _ => Except.ok false

/-- The number of HMAC digests `verifyStripeWebhookRaw` computes: mirrors
its control flow, with `1` only on the path that reaches
`crypto.subtle.sign` (after the `!t || !v1` guard on source line 1524). -/
def stripeHmacRuns (secret stripeSignature : String) : Nat :=
  if secret = "" then 0
  else
    match lookupLast (stripeParts stripeSignature) "t",
        lookupLast (stripeParts stripeSignature) "v1" with
    | some _, some _ => 1
    | _, _ => 0

/-! ## Properties of the constant-time comparison -/

theorem or_eq_zero_parts (a b : Nat) (h : a ||| b = 0) : a = 0 ∧ b = 0 := by
  constructor
  · apply Nat.eq_of_testBit_eq
    intro i
    have ht : (a ||| b).testBit i = false := by rw [h]; exact Nat.zero_testBit i
    rw [Nat.testBit_lor] at ht
    rcases Bool.or_eq_false_iff.mp ht with ⟨h1, _⟩
    rw [h1, Nat.zero_testBit]
  · apply Nat.eq_of_testBit_eq
    intro i
    have ht : (a ||| b).testBit i = false := by rw [h]; exact Nat.zero_testBit i
    rw [Nat.testBit_lor] at ht
    rcases Bool.or_eq_false_iff.mp ht with ⟨_, h2⟩
    rw [h2, Nat.zero_testBit]

theorem char_eq_of_toNat_eq (a b : Char) (h : a.toNat = b.toNat) : a = b := by
  have h2 : a.val.toNat = b.val.toNat := h
  have h3 : a.val = b.val := by
    apply UInt32.eq_of_toBitVec_eq
    apply BitVec.eq_of_toNat_eq
    exact h2
  exact Char.ext h3

theorem xorFold_eq_zero_iff (l : List (Char × Char)) (acc : Nat) :
    (l.foldl (fun out p => out ||| (p.1.toNat ^^^ p.2.toNat)) acc = 0) ↔
      (acc = 0 ∧ ∀ p ∈ l, p.1 = p.2) := by
  induction l generalizing acc with
  | nil => simp
  | cons p rest ih =>
    simp only [List.foldl_cons, List.mem_cons]
    rw [ih]
    constructor
    · rintro ⟨hz, hall⟩
      obtain ⟨ha, hx⟩ := or_eq_zero_parts _ _ hz
      have hp : p.1 = p.2 := char_eq_of_toNat_eq _ _ (Nat.xor_eq_zero.mp hx)
      refine ⟨ha, fun q hq => ?_⟩
      rcases hq with rfl | hq
      · exact hp
      · exact hall q hq
    · rintro ⟨rfl, hall⟩
      have hp : p.1 = p.2 := hall p (Or.inl rfl)
      have hx : p.1.toNat ^^^ p.2.toNat = 0 := Nat.xor_eq_zero.mpr (by rw [hp])
      rw [hx]
      exact ⟨rfl, fun q hq => hall q (Or.inr hq)⟩

theorem zip_pairs_eq_iff (xs ys : List Char) (hlen : xs.length = ys.length) :
    (∀ p ∈ xs.zip ys, p.1 = p.2) ↔ xs = ys := by
  induction xs generalizing ys with
  | nil =>
    cases ys with
    | nil => simp
    | cons y ys => simp at hlen
  | cons x xs ih =>
    cases ys with
    | nil => simp at hlen
    | cons y ys =>
      simp only [List.zip_cons_cons, List.mem_cons, List.cons.injEq]
      simp only [List.length_cons, Nat.succ.injEq] at hlen
      rw [← ih ys hlen]
      constructor
      · intro hall
        exact ⟨hall (x, y) (Or.inl rfl), fun q hq => hall q (Or.inr hq)⟩
      · rintro ⟨hxy, hall⟩ q hq
        rcases hq with rfl | hq
        · exact hxy
        · exact hall q hq

/-- The comparison succeeds exactly on equal strings. -/
theorem timingSafeEqualHex_eq_true_iff (a b : String) :
    timingSafeEqualHex a b = true ↔ a = b := by
  unfold timingSafeEqualHex
  by_cases hlen : a.length = b.length
  · rw [if_neg (fun hne => hne hlen)]
    rw [beq_iff_eq, xorFold_eq_zero_iff]
    have hd : a.data.length = b.data.length := hlen
    rw [zip_pairs_eq_iff a.data b.data hd]
    constructor
    · rintro ⟨-, hdata⟩
      exact String.ext hdata
    · rintro rfl
      exact ⟨rfl, rfl⟩
  · rw [if_pos hlen]
    constructor
    · intro h
      exact absurd h (by simp)
    · rintro rfl
      exact absurd rfl hlen

theorem timingSafeEqualHex_length_ne (a b : String) (h : a.length ≠ b.length) :
    timingSafeEqualHex a b = false := by
  unfold timingSafeEqualHex
  rw [if_pos h]

theorem timingSafeEqualHex_self (a : String) : timingSafeEqualHex a a = true :=
  (timingSafeEqualHex_eq_true_iff a a).mpr rfl

theorem countFold (l : List (Char × Char)) (n : Nat) :
    l.foldl (fun k _ => k + 1) n = n + l.length := by
  induction l generalizing n with
  | nil => simp
  | cons p rest ih => simp [List.foldl_cons, ih]; omega

/-- On length-equal inputs the loop always runs the full length, whatever
the contents. -/
theorem timingSafeEqualHexSteps_eq_length (a b : String) (h : a.length = b.length) :
    timingSafeEqualHexSteps a b = a.length := by
  unfold timingSafeEqualHexSteps
  rw [if_neg (fun hne => hne h), countFold, List.length_zip]
  have hd : a.data.length = b.data.length := h
  show 0 + min a.data.length b.data.length = a.data.length
  omega

/-! ## Token-shape lemmas -/

theorem splitOnChar_not_mem (sep : Char) (l : List Char) (h : sep ∉ l) :
    splitOnChar sep l = [l] := by
  induction l with
  | nil => rfl
  | cons c rest ih =>
    have hc : c ≠ sep := fun heq => h (heq ▸ List.mem_cons_self _ _)
    have hrest : sep ∉ rest := fun hmem => h (List.mem_cons_of_mem _ hmem)
    rw [splitOnChar, if_neg hc, ih hrest]

theorem splitOnChar_append (sep : Char) (a b : List Char) (ha : sep ∉ a) :
    splitOnChar sep (a ++ sep :: b) = a :: splitOnChar sep b := by
  induction a with
  | nil => simp [splitOnChar]
  | cons c rest ih =>
    have hc : c ≠ sep := fun heq => ha (heq ▸ List.mem_cons_self _ _)
    have hrest : sep ∉ rest := fun hmem => ha (List.mem_cons_of_mem _ hmem)
    rw [List.cons_append, splitOnChar, if_neg hc, ih hrest]

theorem splitOnChar_ne_nil (sep : Char) (l : List Char) : splitOnChar sep l ≠ [] := by
  cases l with
  | nil => simp [splitOnChar]
  | cons c rest =>
    rw [splitOnChar]
    by_cases hc : c = sep
    · rw [if_pos hc]; simp
    · rw [if_neg hc]
      cases splitOnChar sep rest <;> simp

/-- A well-formed token `p.s` (both halves nonempty and dot-free) splits
into exactly those halves; anything after a *second* dot lands beyond the
first two segments and is dropped by the destructuring. -/
theorem tokenHalves_wellformed (p s : List Char) (hp : '.' ∉ p) (hs : '.' ∉ s)
    (hpne : p ≠ []) (hsne : s ≠ []) :
    tokenHalves (String.mk (p ++ '.' :: s)) = some (String.mk p, String.mk s) := by
  unfold tokenHalves
  show (match splitOnChar '.' (p ++ '.' :: s) with
    | payloadB64 :: sigHex :: _ =>
      if payloadB64 = [] ∨ sigHex = [] then none
      else some (String.mk payloadB64, String.mk sigHex)
    | _ => none) = _
  rw [splitOnChar_append '.' p s hp, splitOnChar_not_mem '.' s hs]
  show (if p = [] ∨ s = [] then none else some (String.mk p, String.mk s)) = _
  rw [if_neg (by simp [hpne, hsne])]

/-- Appending a dot and anything to a well-formed token leaves the first two
segments — hence the halves the verifier uses — unchanged. -/
theorem tokenHalves_append_junk (p s : List Char) (junk : String)
    (hp : '.' ∉ p) (hs : '.' ∉ s) (hpne : p ≠ []) (hsne : s ≠ []) :
    tokenHalves (String.mk (p ++ '.' :: s) ++ "." ++ junk) =
      some (String.mk p, String.mk s) := by
  unfold tokenHalves
  have hdata : (String.mk (p ++ '.' :: s) ++ "." ++ junk).data =
      p ++ '.' :: (s ++ '.' :: junk.data) := by
    show ((p ++ '.' :: s) ++ ['.']) ++ junk.data = _
    simp
  rw [hdata]
  show (match splitOnChar '.' (p ++ '.' :: (s ++ '.' :: junk.data)) with
    | payloadB64 :: sigHex :: _ =>
      if payloadB64 = [] ∨ sigHex = [] then none
      else some (String.mk payloadB64, String.mk sigHex)
    | _ => none) = _
  rw [splitOnChar_append '.' p _ hp, splitOnChar_append '.' s junk.data hs]
  show (if p = [] ∨ s = [] then none else some (String.mk p, String.mk s)) = _
  rw [if_neg (by simp [hpne, hsne])]

/-! ## Character facts about the encoded payload and signature -/

theorem base64urlEncode_no_dot (s : String) : '.' ∉ (base64urlEncode s).data := by
  rw [base64urlEncode_eq]
  intro hmem
  simp only [List.mem_map] at hmem
  obtain ⟨c1, hc1, hrep⟩ := hmem
  obtain ⟨c0, hc0, hrep0⟩ := hc1
  have hc0mem := mem_btoaNoPad _ _ hc0
  have : ∀ x ∈ base64Chars, repSlash (repPlus x) ≠ '.' := by decide
  have hne := this c0 hc0mem
  rw [hrep0] at hne
  exact hne hrep

theorem btoaNoPad_ne_nil (bytes : List Nat) (h : bytes ≠ []) : btoaNoPad bytes ≠ [] := by
  cases bytes with
  | nil => exact absurd rfl h
  | cons a rest =>
    cases rest with
    | nil => simp [btoaNoPad]
    | cons b rest2 =>
      cases rest2 with
      | nil => simp [btoaNoPad]
      | cons c rest3 => simp [btoaNoPad]

theorem utf8Encode_ne_nil (s : String) (h : s.data ≠ []) : utf8Encode s ≠ [] := by
  unfold utf8Encode
  cases hd : s.data with
  | nil => exact absurd hd h
  | cons c rest =>
    simp only [List.flatMap_cons]
    intro happ
    rcases List.append_eq_nil.mp happ with ⟨henc, -⟩
    unfold utf8EncodeChar at henc
    by_cases h1 : c.toNat < 0x80
    · rw [if_pos h1] at henc; simp at henc
    · by_cases h2 : c.toNat < 0x800
      · rw [if_neg h1, if_pos h2] at henc; simp at henc
      · by_cases h3 : c.toNat < 0x10000
        · rw [if_neg h1, if_neg h2, if_pos h3] at henc; simp at henc
        · rw [if_neg h1, if_neg h2, if_neg h3] at henc; simp at henc

theorem base64urlEncode_ne_nil (s : String) (h : s.data ≠ []) :
    (base64urlEncode s).data ≠ [] := by
  rw [base64urlEncode_eq]
  intro hmap
  rcases List.map_eq_nil_iff.mp (List.map_eq_nil_iff.mp hmap) with hnp
  exact btoaNoPad_ne_nil _ (utf8Encode_ne_nil s h) hnp

/-! ## JSON string-literal round trip -/

theorem hexVal_hexDigitChar (n : Nat) (h : n < 16) : hexVal (hexDigitChar n) = some n := by
  revert h
  revert n
  decide

theorem char_ofNat_toNat_small (c : Char) : Char.ofNat c.toNat = c := Char.ofNat_toNat c

/-- Parsing the escaped body of one character continues as the character. -/
theorem parseStringBody_escapeChar (c : Char) (tail : List Char) :
    parseStringBody (escapeChar c ++ tail) =
      (parseStringBody tail).map (fun p => (c :: p.1, p.2)) := by
  have hofnat := Char.ofNat_toNat c
  unfold escapeChar
  by_cases hq : c = '"'
  · rw [if_pos hq]
    show parseStringBody ('\\' :: '"' :: tail) = _
    rw [parseStringBody, if_neg (by decide), if_pos rfl, parseEsc, if_neg (by decide)]
    have hec : unescapeChar '"' = some c := by rw [hq]; decide
    rw [hec]
    cases parseStringBody tail <;> rfl
  · rw [if_neg hq]
    by_cases hb : c = '\\'
    · rw [if_pos hb]
      show parseStringBody ('\\' :: '\\' :: tail) = _
      rw [parseStringBody, if_neg (by decide), if_pos rfl, parseEsc, if_neg (by decide)]
      have hec : unescapeChar '\\' = some c := by rw [hb]; decide
      rw [hec]
      cases parseStringBody tail <;> rfl
    · rw [if_neg hb]
      by_cases h8 : c.toNat = 8
      · rw [if_pos h8]
        show parseStringBody ('\\' :: 'b' :: tail) = _
        rw [parseStringBody, if_neg (by decide), if_pos rfl, parseEsc, if_neg (by decide)]
        have hec : unescapeChar 'b' = some c := by
          have h1 : unescapeChar 'b' = some (Char.ofNat 8) := by decide
          rw [h1, ← h8, hofnat]
        rw [hec]
        cases parseStringBody tail <;> rfl
      · rw [if_neg h8]
        by_cases h9 : c.toNat = 9
        · rw [if_pos h9]
          show parseStringBody ('\\' :: 't' :: tail) = _
          rw [parseStringBody, if_neg (by decide), if_pos rfl, parseEsc, if_neg (by decide)]
          have hec : unescapeChar 't' = some c := by
            have h1 : unescapeChar 't' = some '\t' := by decide
            have h2 : '\t' = c := char_eq_of_toNat_eq _ _ (by rw [h9]; decide)
            rw [h1, h2]
          rw [hec]
          cases parseStringBody tail <;> rfl
        · rw [if_neg h9]
          by_cases h10 : c.toNat = 10
          · rw [if_pos h10]
            show parseStringBody ('\\' :: 'n' :: tail) = _
            rw [parseStringBody, if_neg (by decide), if_pos rfl, parseEsc, if_neg (by decide)]
            have hec : unescapeChar 'n' = some c := by
              have h1 : unescapeChar 'n' = some '\n' := by decide
              have h2 : '\n' = c := char_eq_of_toNat_eq _ _ (by rw [h10]; decide)
              rw [h1, h2]
            rw [hec]
            cases parseStringBody tail <;> rfl
          · rw [if_neg h10]
            by_cases h12 : c.toNat = 12
            · rw [if_pos h12]
              show parseStringBody ('\\' :: 'f' :: tail) = _
              rw [parseStringBody, if_neg (by decide), if_pos rfl, parseEsc,
                if_neg (by decide)]
              have hec : unescapeChar 'f' = some c := by
                have h1 : unescapeChar 'f' = some (Char.ofNat 12) := by decide
                rw [h1, ← h12, hofnat]
              rw [hec]
              cases parseStringBody tail <;> rfl
            · rw [if_neg h12]
              by_cases h13 : c.toNat = 13
              · rw [if_pos h13]
                show parseStringBody ('\\' :: 'r' :: tail) = _
                rw [parseStringBody, if_neg (by decide), if_pos rfl, parseEsc,
                  if_neg (by decide)]
                have hec : unescapeChar 'r' = some c := by
                  have h1 : unescapeChar 'r' = some '\r' := by decide
                  have h2 : '\r' = c := char_eq_of_toNat_eq _ _ (by rw [h13]; decide)
                  rw [h1, h2]
                rw [hec]
                cases parseStringBody tail <;> rfl
              · rw [if_neg h13]
                by_cases hctl : c.toNat < 32
                · rw [if_pos hctl]
                  show parseStringBody
                      ('\\' :: 'u' :: '0' :: '0' ::
                        hexDigitChar (c.toNat / 16) :: hexDigitChar c.toNat :: tail) = _
                  rw [parseStringBody, if_neg (by decide), if_pos rfl, parseEsc,
                    if_pos rfl, parseUEsc]
                  rw [show hexVal '0' = some 0 from by decide]
                  rw [hexVal_hexDigitChar (c.toNat / 16) (by omega)]
                  have hmod : hexVal (hexDigitChar c.toNat) = some (c.toNat % 16) := by
                    have heq : hexDigitChar c.toNat = hexDigitChar (c.toNat % 16) := by
                      unfold hexDigitChar
                      congr 1
                      omega
                    rw [heq]
                    exact hexVal_hexDigitChar _ (by omega)
                  rw [hmod]
                  have hval :
                      Char.ofNat (0 * 4096 + 0 * 256 + c.toNat / 16 * 16 + c.toNat % 16) =
                        c := by
                    have harith : 0 * 4096 + 0 * 256 + c.toNat / 16 * 16 + c.toNat % 16 =
                        c.toNat := by omega
                    rw [harith, hofnat]
                  cases hp : parseStringBody tail with
                  | none => rfl
                  | some p =>
                    obtain ⟨cs, r⟩ := p
                    show some
                        (Char.ofNat (0 * 4096 + 0 * 256 + c.toNat / 16 * 16 + c.toNat % 16)
                          :: cs, r) =
                      some (c :: cs, r)
                    rw [hval]
                · rw [if_neg hctl]
                  show parseStringBody (c :: tail) = _
                  rw [parseStringBody, if_neg hq, if_neg hb, if_neg hctl]
                  cases parseStringBody tail <;> rfl

/-- Parsing an escaped string body against its closing quote recovers the
original characters. -/
theorem parseStringBody_escape (l : List Char) (rest : List Char) :
    parseStringBody (l.flatMap escapeChar ++ '"' :: rest) = some (l, rest) := by
  induction l with
  | nil =>
    show parseStringBody ('"' :: rest) = some ([], rest)
    rw [parseStringBody, if_pos rfl]
  | cons c cs ih =>
    rw [List.flatMap_cons, List.append_assoc, parseStringBody_escapeChar, ih]
    rfl

/-! ## JSON number round trip -/

/-- Proof artifact: value of a little-endian digit list. -/
def ofDigitsLE : List Nat → Nat
  | [] => 0
  | d :: ds => d + 10 * ofDigitsLE ds

/-- Proof artifact: the big-endian decimal digits of `n`. -/
def natDigitsBE (n : Nat) : List Nat :=
  if n = 0 then [0] else (digitsRevAux n n).reverse

theorem digitsRevAux_zero (fuel : Nat) : digitsRevAux fuel 0 = [] := by
  cases fuel with
  | zero => rfl
  | succ f => rw [digitsRevAux, if_pos rfl]

theorem ofDigitsLE_digitsRevAux (fuel n : Nat) (h : n ≤ fuel) :
    ofDigitsLE (digitsRevAux fuel n) = n := by
  induction fuel generalizing n with
  | zero =>
    have : n = 0 := by omega
    subst this
    rfl
  | succ f ih =>
    by_cases hn : n = 0
    · subst hn
      rw [digitsRevAux, if_pos rfl]
      rfl
    · rw [digitsRevAux, if_neg hn, ofDigitsLE]
      have hdiv : n / 10 ≤ f := by
        have := Nat.div_lt_self (Nat.pos_of_ne_zero hn) (by omega : 1 < 10)
        omega
      rw [ih (n / 10) hdiv]
      omega

theorem digitsRevAux_lt_10 (fuel n : Nat) : ∀ d ∈ digitsRevAux fuel n, d < 10 := by
  induction fuel generalizing n with
  | zero => simp [digitsRevAux]
  | succ f ih =>
    intro d hd
    rw [digitsRevAux] at hd
    by_cases hn : n = 0
    · rw [if_pos hn] at hd; simp at hd
    · rw [if_neg hn] at hd
      rcases List.mem_cons.mp hd with rfl | hmem
      · exact Nat.mod_lt _ (by omega)
      · exact ih _ d hmem

theorem digitsRevAux_ne_nil (fuel n : Nat) (h1 : 1 ≤ n) (h2 : n ≤ fuel) :
    digitsRevAux fuel n ≠ [] := by
  cases fuel with
  | zero => omega
  | succ f =>
    rw [digitsRevAux, if_neg (by omega : ¬ n = 0)]
    simp

theorem digitsRevAux_getLast_ne_zero (fuel n : Nat) (h1 : 1 ≤ n) (h2 : n ≤ fuel) :
    (digitsRevAux fuel n).getLast? ≠ some 0 := by
  induction fuel generalizing n with
  | zero => omega
  | succ f ih =>
    rw [digitsRevAux, if_neg (by omega : ¬ n = 0)]
    by_cases hq : n / 10 = 0
    · rw [hq, digitsRevAux_zero]
      intro hcontra
      have h10 : n % 10 = 0 := by simpa using hcontra
      omega
    · have hne := digitsRevAux_ne_nil f (n / 10) (by omega) (by
        have := Nat.div_lt_self (by omega : 0 < n) (by omega : 1 < 10)
        omega)
      cases hl : digitsRevAux f (n / 10) with
      | nil => exact absurd hl hne
      | cons x xs =>
        rw [List.getLast?_cons_cons]
        have hih := ih (n / 10) (by omega) (by
          have := Nat.div_lt_self (by omega : 0 < n) (by omega : 1 < 10)
          omega)
        rw [hl] at hih
        exact hih

theorem foldl_digits_reverse (le : List Nat) (acc : Nat) :
    le.reverse.foldl (fun a d => a * 10 + d) acc = acc * 10 ^ le.length + ofDigitsLE le := by
  induction le generalizing acc with
  | nil => simp [ofDigitsLE]
  | cons d ds ih =>
    rw [List.reverse_cons, List.foldl_append, ih]
    simp only [List.foldl_cons, List.foldl_nil, ofDigitsLE, List.length_cons]
    ring

theorem digitsValNat_natDigitsBE (n : Nat) : digitsValNat (natDigitsBE n) = n := by
  unfold natDigitsBE digitsValNat
  by_cases hn : n = 0
  · rw [if_pos hn, hn]; rfl
  · rw [if_neg hn, foldl_digits_reverse]
    rw [ofDigitsLE_digitsRevAux n n (Nat.le_refl n)]
    simp

theorem natDigitsBE_lt_10 (n : Nat) : ∀ d ∈ natDigitsBE n, d < 10 := by
  unfold natDigitsBE
  by_cases hn : n = 0
  · rw [if_pos hn]; simp
  · rw [if_neg hn]
    intro d hd
    exact digitsRevAux_lt_10 n n d (List.mem_reverse.mp hd)

theorem natDigitsBE_ne_nil (n : Nat) : natDigitsBE n ≠ [] := by
  unfold natDigitsBE
  by_cases hn : n = 0
  · rw [if_pos hn]; simp
  · rw [if_neg hn]
    simp only [ne_eq, List.reverse_eq_nil_iff]
    exact digitsRevAux_ne_nil n n (by omega) (Nat.le_refl n)

theorem natDigitsBE_head_ne_zero (n : Nat) (hn : n ≠ 0) (d : Nat) (ds : List Nat)
    (h : natDigitsBE n = d :: ds) : d ≠ 0 := by
  unfold natDigitsBE at h
  rw [if_neg hn] at h
  intro hd0
  subst hd0
  have hlast := digitsRevAux_getLast_ne_zero n n (by omega) (Nat.le_refl n)
  apply hlast
  have : (digitsRevAux n n).getLast? = ((digitsRevAux n n).reverse).head? := by
    rw [List.head?_reverse]
  rw [this, h]
  rfl

theorem natToChars_eq_map (n : Nat) : natToChars n = (natDigitsBE n).map decDigitChar := by
  unfold natToChars natDigitsBE
  by_cases hn : n = 0
  · rw [if_pos hn, if_pos hn]; rfl
  · rw [if_neg hn, if_neg hn]

theorem decDigitChar_isDigit (d : Nat) (h : d < 10) : (decDigitChar d).isDigit = true := by
  revert h; revert d; decide

theorem decDigitChar_val (d : Nat) (h : d < 10) : (decDigitChar d).toNat - 48 = d := by
  revert h; revert d; decide

theorem parseDigits_map (ds : List Nat) (h : ∀ d ∈ ds, d < 10) (rest : List Char)
    (hrest : ∀ c r, rest = c :: r → c.isDigit = false) :
    parseDigits (ds.map decDigitChar ++ rest) = (ds, rest) := by
  induction ds with
  | nil =>
    cases rest with
    | nil => rfl
    | cons c r =>
      show parseDigits (c :: r) = ([], c :: r)
      rw [parseDigits, if_neg (by rw [hrest c r rfl]; exact Bool.false_ne_true)]
  | cons d ds ih =>
    have hd : d < 10 := h d (List.mem_cons_self _ _)
    show parseDigits (decDigitChar d :: (ds.map decDigitChar ++ rest)) = _
    rw [parseDigits, if_pos (by rw [decDigitChar_isDigit d hd])]
    rw [ih (fun x hx => h x (List.mem_cons_of_mem _ hx)) ]
    simp only [decDigitChar_val d hd]

/-- Boundary condition after a number literal: end of input or a character
that cannot continue the token. -/
def numBoundary : List Char → Prop
  | [] => True
  | c :: _ => c.isDigit = false ∧ c ≠ '.' ∧ c ≠ 'e' ∧ c ≠ 'E'

theorem parseNumCore_natToChars (n : Nat) (rest : List Char) (hrest : numBoundary rest) :
    parseNumCore (natToChars n ++ rest) = some (n, rest) := by
  rw [natToChars_eq_map]
  cases hbe : natDigitsBE n with
  | nil => exact absurd hbe (natDigitsBE_ne_nil n)
  | cons d ds =>
    unfold parseNumCore
    have hlt : ∀ x ∈ d :: ds, x < 10 := by rw [← hbe]; exact natDigitsBE_lt_10 n
    have hdig := parseDigits_map (d :: ds) hlt rest (by
      intro c r hr
      subst hr
      exact hrest.1)
    rw [hdig]
    have hguard : ¬ (d = 0 ∧ ds ≠ []) := by
      by_cases hn : n = 0
      · have : natDigitsBE n = [0] := by unfold natDigitsBE; rw [if_pos hn]
        rw [hbe] at this
        simp only [List.cons.injEq] at this
        rintro ⟨-, hne⟩
        exact hne this.2
      · have := natDigitsBE_head_ne_zero n hn d ds hbe
        rintro ⟨h0, -⟩
        exact this h0
    show (if d = 0 ∧ ds ≠ [] then none
      else
        match rest with
        | c :: _ =>
          if c = '.' ∨ c = 'e' ∨ c = 'E' then none else some (digitsValNat (d :: ds), rest)
        | [] => some (digitsValNat (d :: ds), [])) = some (n, rest)
    rw [if_neg hguard]
    have hval : digitsValNat (d :: ds) = n := by rw [← hbe]; exact digitsValNat_natDigitsBE n
    cases rest with
    | nil => rw [hval]
    | cons c r =>
      obtain ⟨hcd, hdot, he, hE⟩ := hrest
      show (if c = '.' ∨ c = 'e' ∨ c = 'E' then none
        else some (digitsValNat (d :: ds), c :: r)) = some (n, c :: r)
      rw [if_neg (by
        rintro (h | h | h)
        · exact hdot h
        · exact he h
        · exact hE h), hval]

theorem decDigitChar_mem (d : Nat) : decDigitChar d ∈ decDigits := by
  have h : d % 10 < 10 := Nat.mod_lt _ (by decide)
  have : ∀ m, m < 10 → decDigits.getD m '0' ∈ decDigits := by decide
  exact this _ h

theorem parseNumberTok_natToChars (n : Nat) (rest : List Char) (hrest : numBoundary rest) :
    parseNumberTok (natToChars n ++ rest) = some (Json.num (n : Int), rest) := by
  have hcore := parseNumCore_natToChars n rest hrest
  rw [natToChars_eq_map] at hcore ⊢
  cases hbe : natDigitsBE n with
  | nil => exact absurd hbe (natDigitsBE_ne_nil n)
  | cons d ds =>
    rw [hbe] at hcore
    show parseNumberTok (decDigitChar d :: (ds.map decDigitChar ++ rest)) = _
    rw [parseNumberTok]
    have hnotminus : decDigitChar d ≠ '-' := by
      have hmem := decDigitChar_mem d
      have : ∀ c ∈ decDigits, c ≠ '-' := by decide
      exact this _ hmem
    rw [if_neg hnotminus]
    show (match parseNumCore (decDigitChar d :: (ds.map decDigitChar ++ rest)) with
      | some (v, r) => some (Json.num (v : Int), r)
      | none => none) = _
    show (match parseNumCore (List.map decDigitChar (d :: ds) ++ rest) with
      | some (v, r) => some (Json.num (v : Int), r)
      | none => none) = some (Json.num (n : Int), rest)
    rw [hcore]

/-! ## Parsing the printed payload object -/

theorem string_mk_data (s : String) : String.mk s.data = s := rfl

theorem skipWs_cons_not (c : Char) (l : List Char) (h : isJsonWs c = false) :
    skipWs (c :: l) = c :: l := by
  unfold skipWs
  rw [List.dropWhile_cons]
  rw [h]
  simp

theorem printStr_append (s : String) (x : List Char) :
    printStr s ++ x = '"' :: (s.data.flatMap escapeChar ++ '"' :: x) := by
  unfold printStr
  simp

theorem parseVal_quote (f : Nat) (l : List Char) :
    parseVal (f + 1) ('"' :: l) =
      (parseStringBody l).bind (fun p => some (Json.str (String.mk p.1), p.2)) := rfl

theorem parseVal_brace (f : Nat) (l : List Char) :
    parseVal (f + 1) ('{' :: l) =
      (match skipWs l with
       | c2 :: r2 =>
         if c2 = '}' then some (Json.obj [], r2)
         else (parseMembers f (c2 :: r2)).bind (fun p => some (Json.obj p.1, p.2))
       | [] => none) := rfl

theorem parseMembers_quote (f : Nat) (l : List Char) :
    parseMembers (f + 1) ('"' :: l) =
      (parseStringBody l).bind (fun kp =>
        match skipWs kp.2 with
        | c1 :: r2 =>
          if c1 = ':' then
            (parseVal f r2).bind (fun vp =>
              match skipWs vp.2 with
              | c2 :: r4 =>
                if c2 = ',' then
                  (parseMembers f r4).bind (fun mp =>
                    some ((String.mk kp.1, vp.1) :: mp.1, mp.2))
                else if c2 = '}' then some ([(String.mk kp.1, vp.1)], r4)
                else none
              | [] => none)
          else none
        | [] => none) := rfl

theorem parseVal_digit (f : Nat) (c : Char) (l : List Char) (hc : c.isDigit = true) :
    parseVal (f + 1) (c :: l) = parseNumberTok (c :: l) := by
  have htoNat : 48 ≤ c.toNat ∧ c.toNat ≤ 57 := by
    unfold Char.isDigit at hc
    simp only [Bool.and_eq_true, decide_eq_true_eq] at hc
    exact ⟨hc.1, hc.2⟩
  have hne : ∀ d : Char, d.toNat ≠ c.toNat → c ≠ d := by
    intro d hd heq
    exact hd (by rw [heq])
  have hws : isJsonWs c = false := by
    unfold isJsonWs
    simp only [Bool.or_eq_false_iff, decide_eq_false_iff_not]
    refine ⟨⟨⟨fun h => ?_, fun h => ?_⟩, fun h => ?_⟩, fun h => ?_⟩ <;>
      · have := congrArg Char.toNat h
        simp at this
        omega
  rw [parseVal, skipWs_cons_not c l hws]
  have h1 : ¬ c = '"' := hne '"' (by intro h; simp at h; omega)
  have h2 : ¬ c = '{' := hne '{' (by intro h; simp at h; omega)
  have h3 : ¬ c = '[' := hne '[' (by intro h; simp at h; omega)
  have h4 : ¬ c = 't' := hne 't' (by intro h; simp at h; omega)
  have h5 : ¬ c = 'f' := hne 'f' (by intro h; simp at h; omega)
  have h6 : ¬ c = 'n' := hne 'n' (by intro h; simp at h; omega)
  simp only [if_neg h1, if_neg h2, if_neg h3, if_neg h4, if_neg h5, if_neg h6]

theorem skipWs_colon (l : List Char) : skipWs (':' :: l) = ':' :: l := rfl

theorem skipWs_comma (l : List Char) : skipWs (',' :: l) = ',' :: l := rfl

theorem skipWs_rbrace (l : List Char) : skipWs ('}' :: l) = '}' :: l := rfl

theorem jsIntToChars_ofNat (m : Nat) : jsIntToChars (m : Int) = natToChars m := by
  unfold jsIntToChars
  rw [if_neg (by omega : ¬ (m : Int) < 0)]
  norm_num

theorem parseVal_natToChars (f : Nat) (n : Nat) (rest : List Char) (hrest : numBoundary rest) :
    parseVal (f + 1) (natToChars n ++ rest) = some (Json.num (n : Int), rest) := by
  have hnum := parseNumberTok_natToChars n rest hrest
  rw [natToChars_eq_map] at hnum ⊢
  cases hbe : natDigitsBE n with
  | nil => exact absurd hbe (natDigitsBE_ne_nil n)
  | cons d ds =>
    rw [hbe] at hnum
    have hd : d < 10 := natDigitsBE_lt_10 n d (by rw [hbe]; exact List.mem_cons_self _ _)
    show parseVal (f + 1) (decDigitChar d :: (List.map decDigitChar ds ++ rest)) = _
    rw [parseVal_digit f _ _ (decDigitChar_isDigit d hd)]
    exact hnum

theorem assoc_form (p1 p2 p3 p4 p5 n rest : List Char) :
    ('{' :: ((p1 ++ ':' :: p2) ++ ',' ::
      ((p3 ++ ':' :: p4) ++ ',' :: (p5 ++ ':' :: n)) ++ ['}'])) ++ rest =
    '{' :: (p1 ++ ':' :: (p2 ++ ',' :: (p3 ++ ':' ::
      (p4 ++ ',' :: (p5 ++ ':' :: (n ++ '}' :: rest)))))) := by
  simp

/-- The printed payload in head-normal list form. -/
theorem payload_print_form (oid email : String) (now : Nat) (rest : List Char) :
    jsonPrint (reviewTokenPayload oid email now) ++ rest =
      '{' :: (printStr "order_id" ++ ':' ::
        (printStr oid ++ ',' :: (printStr "email" ++ ':' ::
          (printStr (jsToLowerCase email) ++ ',' :: (printStr "exp" ++ ':' ::
            (natToChars (now + reviewTokenWindowMs) ++ '}' :: rest)))))) := by
  have hexp : jsIntToChars ((now : Int) + (reviewTokenWindowMs : Int)) =
      natToChars (now + reviewTokenWindowMs) := by
    have hcast : ((now : Int) + (reviewTokenWindowMs : Int)) =
        ((now + reviewTokenWindowMs : Nat) : Int) := by push_cast; ring
    rw [hcast, jsIntToChars_ofNat]
  unfold reviewTokenPayload
  rw [jsonPrint]
  rw [jsonPrintFields, jsonPrintFields, jsonPrintFields, jsonPrintFields]
  rw [jsonPrint, jsonPrint, jsonPrint]
  rw [joinComma, joinComma, joinComma]
  rw [hexp]
  exact assoc_form _ _ _ _ _ _ _

/-- A final `"exp": <n>` member closed by the object brace. -/
theorem parseMembers_exp (g : Nat) (e : Nat) (rest : List Char) :
    parseMembers (g + 2) (printStr "exp" ++ ':' :: (natToChars e ++ '}' :: rest)) =
      some ([("exp", Json.num (e : Int))], rest) := by
  rw [printStr_append]
  show parseMembers ((g + 1) + 1) _ = _
  rw [parseMembers_quote, parseStringBody_escape]
  simp only [Option.some_bind, skipWs_colon, if_pos (show (':' : Char) = ':' from rfl),
    if_true]
  rw [parseVal_natToChars g e ('}' :: rest) ⟨by decide, by decide, by decide, by decide⟩]
  simp only [Option.some_bind, skipWs_rbrace,
    if_neg (show ¬ (('}' : Char) = ',') from by decide),
    if_pos (show ('}' : Char) = '}' from rfl), if_true]

/-- A `"k": "v"` member followed by a comma and further members. -/
theorem parseMembers_str_comma (g : Nat) (k v : String) (next : List Char)
    (fs : List (String × Json)) (rest : List Char)
    (hnext : parseMembers (g + 1) next = some (fs, rest)) :
    parseMembers (g + 2) (printStr k ++ ':' :: (printStr v ++ ',' :: next)) =
      some ((k, Json.str v) :: fs, rest) := by
  rw [printStr_append k]
  show parseMembers ((g + 1) + 1) _ = _
  rw [parseMembers_quote, parseStringBody_escape]
  simp only [Option.some_bind, skipWs_colon, if_pos (show (':' : Char) = ':' from rfl),
    if_true]
  rw [printStr_append v]
  show ((parseVal ((g) + 1)
    ('"' :: (v.data.flatMap escapeChar ++ '"' :: (',' :: next)))).bind _) = _
  rw [parseVal_quote, parseStringBody_escape]
  simp only [Option.some_bind, skipWs_comma, if_pos (show ((',') : Char) = ',' from rfl),
    if_true]
  rw [hnext]
  simp only [Option.some_bind]

/-- Parsing the printed three-field payload object returns it whole with the
rest of the input untouched. -/
theorem parseVal_payload (oid email : String) (now : Nat) (f : Nat) (rest : List Char) :
    parseVal (f + 5) (jsonPrint (reviewTokenPayload oid email now) ++ rest) =
      some (reviewTokenPayload oid email now, rest) := by
  rw [payload_print_form]
  show parseVal ((f + 4) + 1) _ = _
  rw [parseVal_brace]
  rw [printStr_append "order_id"]
  rw [skipWs_cons_not '"' _ (by decide)]
  simp only [if_neg (show ¬ (('"' : Char) = '}') from by decide), if_false]
  rw [← printStr_append "order_id"]
  have hm3 := parseMembers_exp f (now + reviewTokenWindowMs) rest
  have hm2 := parseMembers_str_comma (f + 1) "email" (jsToLowerCase email)
    (printStr "exp" ++ ':' :: (natToChars (now + reviewTokenWindowMs) ++ '}' :: rest))
    [("exp", Json.num ((now + reviewTokenWindowMs : Nat) : Int))] rest hm3
  have hm1 := parseMembers_str_comma (f + 2) "order_id" oid
    (printStr "email" ++ ':' :: (printStr (jsToLowerCase email) ++ ',' ::
      (printStr "exp" ++ ':' :: (natToChars (now + reviewTokenWindowMs) ++ '}' :: rest))))
    (("email", Json.str (jsToLowerCase email)) ::
      [("exp", Json.num ((now + reviewTokenWindowMs : Nat) : Int))]) rest hm2
  rw [hm1]
  simp only [Option.some_bind]
  unfold reviewTokenPayload
  norm_num

/-- `JSON.parse` recovers the payload object from its printed form. -/
theorem jsonParse_print_payload (oid email : String) (now : Nat) :
    jsonParse (String.mk (jsonPrint (reviewTokenPayload oid email now))) =
      some (reviewTokenPayload oid email now) := by
  unfold jsonParse
  have hlen2 : 2 ≤ (jsonPrint (reviewTokenPayload oid email now)).length := by
    have hform := payload_print_form oid email now []
    rw [List.append_nil] at hform
    rw [hform]
    simp only [printStr_append, List.length_cons]
    omega
  have hslen : (String.mk (jsonPrint (reviewTokenPayload oid email now))).length =
      (jsonPrint (reviewTokenPayload oid email now)).length := rfl
  obtain ⟨f, hf⟩ :
      ∃ f, 2 * (String.mk (jsonPrint (reviewTokenPayload oid email now))).length + 2 =
        f + 5 :=
    ⟨2 * (jsonPrint (reviewTokenPayload oid email now)).length - 3, by rw [hslen]; omega⟩
  rw [hf]
  have hp := parseVal_payload oid email now f []
  rw [List.append_nil] at hp
  have hdata : (String.mk (jsonPrint (reviewTokenPayload oid email now))).data =
      jsonPrint (reviewTokenPayload oid email now) := rfl
  rw [hdata, hp]
  rfl

/-! ## The created token verifies -/

theorem string_data_ne_nil (s : String) (h : s ≠ "") : s.data ≠ [] := by
  intro hd
  exact h (String.ext hd)

theorem createReviewToken_ok (secret oid email : String) (now : Nat) (hsec : secret ≠ "") :
    createReviewToken secret oid email now =
      Except.ok
        (base64urlEncode (String.mk (jsonPrint (reviewTokenPayload oid email now))) ++ "." ++
          hmacHex secret
            (base64urlEncode (String.mk (jsonPrint (reviewTokenPayload oid email now))))) := by
  unfold createReviewToken
  rw [if_neg hsec]

theorem payload_print_ne_nil (oid email : String) (now : Nat) :
    (String.mk (jsonPrint (reviewTokenPayload oid email now))).data ≠ [] := by
  show jsonPrint (reviewTokenPayload oid email now) ≠ []
  have hform := payload_print_form oid email now []
  rw [List.append_nil] at hform
  rw [hform]
  simp

theorem append_dot_data (a b : String) : (a ++ "." ++ b).data = a.data ++ '.' :: b.data := by
  show (a.data ++ ['.']) ++ b.data = _
  simp

theorem tokenHalves_append (a b : String) (ha : '.' ∉ a.data) (hb : '.' ∉ b.data)
    (hane : a.data ≠ []) (hbne : b.data ≠ []) :
    tokenHalves (a ++ "." ++ b) = some (a, b) := by
  have h := tokenHalves_wellformed a.data b.data ha hb hane hbne
  have hstr : String.mk (a.data ++ '.' :: b.data) = a ++ "." ++ b := by
    apply String.ext
    rw [append_dot_data]
  rw [← hstr, h]

theorem hmac_data_ne_nil (secret msg : String) : (hmacHex secret msg).data ≠ [] :=
  string_data_ne_nil _ (hmacHex_ne_empty secret msg)

/-- The halves of a freshly created token are its payload and signature. -/
theorem tokenHalves_created (secret oid email : String) (now : Nat) :
    tokenHalves
        (base64urlEncode (String.mk (jsonPrint (reviewTokenPayload oid email now))) ++ "." ++
          hmacHex secret
            (base64urlEncode (String.mk (jsonPrint (reviewTokenPayload oid email now))))) =
      some
        (base64urlEncode (String.mk (jsonPrint (reviewTokenPayload oid email now))),
          hmacHex secret
            (base64urlEncode (String.mk (jsonPrint (reviewTokenPayload oid email now))))) :=
  tokenHalves_append _ _
    (base64urlEncode_no_dot _)
    (fun hmem => hmacHex_no_dot _ _ '.' hmem rfl)
    (base64urlEncode_ne_nil _ (payload_print_ne_nil oid email now))
    (hmac_data_ne_nil _ _)

theorem jsField_payload_order (oid email : String) (now : Nat) :
    jsField (reviewTokenPayload oid email now) "order_id" = some (Json.str oid) := by
  unfold reviewTokenPayload jsField
  simp [lookupLast]

theorem jsField_payload_exp (oid email : String) (now : Nat) :
    jsField (reviewTokenPayload oid email now) "exp" =
      some (Json.num ((now : Int) + (reviewTokenWindowMs : Int))) := by
  unfold reviewTokenPayload jsField
  simp [lookupLast]

theorem verifyReviewToken_halves (secret token oid : String) (now : Nat) (a b : String)
    (hsec : secret ≠ "") (hh : tokenHalves token = some (a, b)) :
    verifyReviewToken secret token oid now = verifyTokenParts secret a b oid now := by
  unfold verifyReviewToken
  rw [if_neg hsec, hh]

theorem verifyTokenParts_decoded (secret a b oid : String) (now : Nat) (p : Json)
    (hsig : timingSafeEqualHex (hmacHex secret a) b = true)
    (hdec : (base64urlDecode a).bind jsonParse = some p) :
    verifyTokenParts secret a b oid now = reviewPayloadChecks p oid now := by
  unfold verifyTokenParts
  rw [hsig, hdec]
  simp

theorem reviewPayloadChecks_payload (oid email : String) (now now2 : Nat)
    (hnow : now2 ≤ now + reviewTokenWindowMs) :
    reviewPayloadChecks (reviewTokenPayload oid email now) oid now2 = true := by
  unfold reviewPayloadChecks
  rw [jsField_payload_order oid email now, jsField_payload_exp oid email now]
  simp only [show jsFalsy (reviewTokenPayload oid email now) = false from rfl,
    Bool.false_eq_true, if_false]
  have horder : jsToString (jsOr (some (Json.str oid)) (Json.str "")) =
      (if oid = "" then "" else oid) := by
    unfold jsOr jsFalsy
    by_cases ho : oid = ""
    · subst ho
      simp [jsToString]
    · rw [if_neg ho]
      simp only [beq_eq_false_iff_ne, ne_eq]
      rw [if_neg (by simpa using ho)]
      rfl
  rw [horder, if_neg (by simp)]
  have hexp : jsOr (some (Json.num ((now : Int) + (reviewTokenWindowMs : Int)))) (Json.num 0)
      = Json.num ((now : Int) + (reviewTokenWindowMs : Int)) := by
    show (if ((((now : Int) + (reviewTokenWindowMs : Int)) == 0) = true) then Json.num 0
      else Json.num ((now : Int) + (reviewTokenWindowMs : Int))) = _
    rw [if_neg (by
      simp only [beq_iff_eq]
      have h2 : reviewTokenWindowMs = 3888000000 := rfl
      omega)]
  rw [hexp]
  show (match jsToNumber (Json.num ((now : Int) + (reviewTokenWindowMs : Int))) with
    | none => false
    | some exp => if (now2 : Int) > exp then false else true) = true
  rw [show jsToNumber (Json.num ((now : Int) + (reviewTokenWindowMs : Int))) =
    some ((now : Int) + (reviewTokenWindowMs : Int)) from rfl]
  show (if (now2 : Int) > (now : Int) + (reviewTokenWindowMs : Int) then false else true) =
    true
  rw [if_neg (by
    have h2 : reviewTokenWindowMs = 3888000000 := rfl
    omega)]

/-- The verifier accepts a freshly created token for its own order id at any
time up to the embedded expiry. -/
theorem verify_created_token (secret oid email : String) (now now2 : Nat)
    (hsec : secret ≠ "") (hnow : now2 ≤ now + reviewTokenWindowMs) (tok : String)
    (htok : createReviewToken secret oid email now = Except.ok tok) :
    verifyReviewToken secret tok oid now2 = true := by
  rw [createReviewToken_ok secret oid email now hsec] at htok
  injection htok with htok
  subst htok
  rw [verifyReviewToken_halves secret _ oid now2 _ _ hsec (tokenHalves_created secret oid email now)]
  rw [verifyTokenParts_decoded secret _ _ oid now2 (reviewTokenPayload oid email now)
    (timingSafeEqualHex_self _)
    (by rw [base64urlDecode_encode]
        show jsonParse (String.mk (jsonPrint (reviewTokenPayload oid email now))) = _
        exact jsonParse_print_payload oid email now)]
  exact reviewPayloadChecks_payload oid email now now2 hnow

/-! ## Failure-path lemmas for the review-token verifier -/

theorem verifyReviewToken_empty_secret (token oid : String) (now : Nat) :
    verifyReviewToken "" token oid now = false := by
  unfold verifyReviewToken
  rw [if_pos rfl]

theorem verifyReviewToken_halves_none (secret token oid : String) (now : Nat)
    (hh : tokenHalves token = none) : verifyReviewToken secret token oid now = false := by
  unfold verifyReviewToken
  by_cases hsec : secret = ""
  · rw [if_pos hsec]
  · rw [if_neg hsec, hh]

theorem verifyTokenParts_sig_false (secret a b oid : String) (now : Nat)
    (hsig : timingSafeEqualHex (hmacHex secret a) b = false) :
    verifyTokenParts secret a b oid now = false := by
  unfold verifyTokenParts
  rw [hsig]
  simp

theorem verifyTokenParts_decode_none (secret a b oid : String) (now : Nat)
    (hdec : (base64urlDecode a).bind jsonParse = none) :
    verifyTokenParts secret a b oid now = false := by
  unfold verifyTokenParts
  cases hsig : timingSafeEqualHex (hmacHex secret a) b with
  | false => simp
  | true =>
    rw [hdec]
    simp

/-- Inversion: everything that must have held when the verifier accepted. -/
theorem verifyReviewToken_true_inv (secret token oid : String) (now : Nat)
    (h : verifyReviewToken secret token oid now = true) :
    secret ≠ "" ∧ ∃ a b p, tokenHalves token = some (a, b) ∧
      timingSafeEqualHex (hmacHex secret a) b = true ∧
      (base64urlDecode a).bind jsonParse = some p ∧
      jsFalsy p = false ∧
      jsToString (jsOr (jsField p "order_id") (Json.str "")) =
        (if oid = "" then "" else oid) ∧
      ∃ e, jsToNumber (jsOr (jsField p "exp") (Json.num 0)) = some e ∧ (now : Int) ≤ e := by
  by_cases hsec : secret = ""
  · rw [hsec, verifyReviewToken_empty_secret] at h
    exact absurd h (by simp)
  · refine ⟨hsec, ?_⟩
    cases hh : tokenHalves token with
    | none => rw [verifyReviewToken_halves_none secret token oid now hh] at h; simp at h
    | some ab =>
      obtain ⟨a, b⟩ := ab
      refine ⟨a, b, ?_⟩
      rw [verifyReviewToken_halves secret token oid now a b hsec hh] at h
      cases hsig : timingSafeEqualHex (hmacHex secret a) b with
      | false => rw [verifyTokenParts_sig_false secret a b oid now hsig] at h; simp at h
      | true =>
        cases hdec : (base64urlDecode a).bind jsonParse with
        | none => rw [verifyTokenParts_decode_none secret a b oid now hdec] at h; simp at h
        | some p =>
          refine ⟨p, rfl, rfl, rfl, ?_⟩
          rw [verifyTokenParts_decoded secret a b oid now p hsig hdec] at h
          unfold reviewPayloadChecks at h
          by_cases hf : jsFalsy p = true
          · rw [if_pos hf] at h; simp at h
          · rw [if_neg hf] at h
            refine ⟨by simpa using hf, ?_⟩
            by_cases ho : jsToString (jsOr (jsField p "order_id") (Json.str "")) =
                (if oid = "" then "" else oid)
            · refine ⟨ho, ?_⟩
              rw [if_neg (fun hne => hne ho)] at h
              cases he : jsToNumber (jsOr (jsField p "exp") (Json.num 0)) with
              | none => rw [he] at h; simp at h
              | some e =>
                rw [he] at h
                refine ⟨e, rfl, ?_⟩
                by_cases hlt : (now : Int) > e
                · have h2 : (if (now : Int) > e then false else true) = true := h
                  rw [if_pos hlt] at h2
                  simp at h2
                · omega
            · rw [if_pos ho] at h; simp at h

/-- Order-mismatch forces rejection, whatever the rest of the token. -/
theorem reviewPayloadChecks_order_ne (p : Json) (oid : String) (now : Nat)
    (hne : jsToString (jsOr (jsField p "order_id") (Json.str "")) ≠
      (if oid = "" then "" else oid)) :
    reviewPayloadChecks p oid now = false := by
  unfold reviewPayloadChecks
  by_cases hf : jsFalsy p = true
  · rw [if_pos hf]
  · rw [if_neg hf, if_pos hne]

/-- A past (or NaN) expiry forces rejection, whatever the rest. -/
theorem reviewPayloadChecks_expired (p : Json) (oid : String) (now : Nat)
    (hexp : ∀ e, jsToNumber (jsOr (jsField p "exp") (Json.num 0)) = some e →
      (now : Int) > e) :
    reviewPayloadChecks p oid now = false := by
  unfold reviewPayloadChecks
  by_cases hf : jsFalsy p = true
  · rw [if_pos hf]
  · rw [if_neg hf]
    by_cases ho : jsToString (jsOr (jsField p "order_id") (Json.str "")) =
        (if oid = "" then "" else oid)
    · rw [if_neg (fun hne => hne ho)]
      cases he : jsToNumber (jsOr (jsField p "exp") (Json.num 0)) with
      | none => rfl
      | some e =>
        show (if (now : Int) > e then false else true) = false
        rw [if_pos (hexp e he)]
    · rw [if_pos ho]

/-! ## Stripe verifier lemmas -/

theorem verifyStripeWebhookRaw_found (secret sig raw t v1 : String)
    (hsec : secret ≠ "") (ht : lookupLast (stripeParts sig) "t" = some t)
    (hv : lookupLast (stripeParts sig) "v1" = some v1) :
    verifyStripeWebhookRaw secret sig raw =
      Except.ok (timingSafeEqualHex (hmacHex secret (t ++ "." ++ raw)) v1) := by
  unfold verifyStripeWebhookRaw
  rw [if_neg hsec]
  simp only [ht, hv]
  show (if (hmacHex secret (t ++ "." ++ raw)).length ≠ v1.length then Except.ok false
    else Except.ok
      (((hmacHex secret (t ++ "." ++ raw)).data.zip v1.data).foldl
        (fun out p => out ||| (p.1.toNat ^^^ p.2.toNat)) 0 == 0)) = _
  unfold timingSafeEqualHex
  by_cases hlen : (hmacHex secret (t ++ "." ++ raw)).length = v1.length
  · rw [if_neg (fun hne => hne hlen), if_neg (fun hne => hne hlen)]
  · rw [if_pos hlen, if_pos hlen]

theorem verifyStripeWebhookRaw_missing (secret sig raw : String) (hsec : secret ≠ "")
    (hmiss : lookupLast (stripeParts sig) "t" = none ∨
      lookupLast (stripeParts sig) "v1" = none) :
    verifyStripeWebhookRaw secret sig raw = Except.ok false := by
  unfold verifyStripeWebhookRaw
  rw [if_neg hsec]
  rcases hmiss with h | h
  · simp only [h]
  · simp only [h]
    cases lookupLast (stripeParts sig) "t" <;> rfl

theorem stripeHmacRuns_missing (secret sig : String)
    (hmiss : lookupLast (stripeParts sig) "t" = none ∨
      lookupLast (stripeParts sig) "v1" = none) :
    stripeHmacRuns secret sig = 0 := by
  unfold stripeHmacRuns
  by_cases hsec : secret = ""
  · rw [if_pos hsec]
  · rw [if_neg hsec]
    rcases hmiss with h | h
    · rw [h]
    · rw [h]
      cases lookupLast (stripeParts sig) "t" <;> rfl

/-! ## Extra dot-separated segments are discarded by the split -/

theorem tokenHalves_append_junk_str (a b junk : String) (ha : '.' ∉ a.data)
    (hb : '.' ∉ b.data) (hane : a.data ≠ []) (hbne : b.data ≠ []) :
    tokenHalves (a ++ "." ++ b ++ "." ++ junk) = some (a, b) := by
  have h := tokenHalves_append_junk a.data b.data junk ha hb hane hbne
  have hstr : String.mk (a.data ++ '.' :: b.data) = a ++ "." ++ b := by
    apply String.ext
    rw [append_dot_data]
  rw [hstr] at h
  exact h

/-- Appending a further dot-separated segment to a fresh token does not stop
the verifier from accepting it: the junk after the second dot is ignored. -/
theorem verify_created_token_junk (secret oid email junk : String) (now now2 : Nat)
    (hsec : secret ≠ "") (hnow : now2 ≤ now + reviewTokenWindowMs) (tok : String)
    (htok : createReviewToken secret oid email now = Except.ok tok) :
    verifyReviewToken secret (tok ++ "." ++ junk) oid now2 = true := by
  rw [createReviewToken_ok secret oid email now hsec] at htok
  injection htok with htok
  subst htok
  have hhalves := tokenHalves_append_junk_str
    (base64urlEncode (String.mk (jsonPrint (reviewTokenPayload oid email now))))
    (hmacHex secret
      (base64urlEncode (String.mk (jsonPrint (reviewTokenPayload oid email now)))))
    junk
    (base64urlEncode_no_dot _)
    (fun hmem => hmacHex_no_dot _ _ '.' hmem rfl)
    (base64urlEncode_ne_nil _ (payload_print_ne_nil oid email now))
    (hmac_data_ne_nil _ _)
  rw [verifyReviewToken_halves secret _ oid now2 _ _ hsec hhalves]
  rw [verifyTokenParts_decoded secret _ _ oid now2 (reviewTokenPayload oid email now)
    (timingSafeEqualHex_self _)
    (by rw [base64urlDecode_encode]
        show jsonParse (String.mk (jsonPrint (reviewTokenPayload oid email now))) = _
        exact jsonParse_print_payload oid email now)]
  exact reviewPayloadChecks_payload oid email now now2 hnow

/-! ## Claim theorems -/

/-- C1: Round-trip — for every order id and email and any non-empty secret, a
token freshly issued by createReviewToken verifies true against the same order
id whenever the verification time has not passed the embedded expiry
(issuance time plus 45 days). -/
theorem claim_C1_roundtrip (secret order_id email : String) (now now2 : Nat)
    (hsec : secret ≠ "") (hnow : now2 ≤ now + 45 * 24 * 60 * 60 * 1000)
    (tok : String)
    (htok : createReviewToken secret order_id email now = Except.ok tok) :
    verifyReviewToken secret tok order_id now2 = true :=
  verify_created_token secret order_id email now now2 hsec
    (by
      have h2 : reviewTokenWindowMs = 3888000000 := rfl
      omega)
    tok htok

theorem claim_C1_roundtrip_witness :
    verifyReviewToken "k" ((createReviewToken "k" "FF-1" "A@B.c" 0).toOption.getD "")
      "FF-1" 0 = true := by
  have h := createReviewToken_ok "k" "FF-1" "A@B.c" 0 (by decide)
  exact claim_C1_roundtrip "k" "FF-1" "A@B.c" 0 0 (by decide) (by decide) _ (by rw [h]; rfl)

/-- C2: Constant-time comparison — the comparison rejects immediately on a
length mismatch; on equal lengths it folds over every character pair (the step
count is always the full length, independent of where any mismatch sits) and
returns true exactly when the strings are equal character for character.
The Stripe verifier's inline comparison is the same computation. -/
theorem claim_C2_constant_time (a b : String) :
    (a.length ≠ b.length → timingSafeEqualHex a b = false) ∧
    (a.length = b.length → timingSafeEqualHexSteps a b = a.length) ∧
    (timingSafeEqualHex a b = true ↔ a = b) ∧
    (∀ secret sig raw t v1 : String, secret ≠ "" →
      lookupLast (stripeParts sig) "t" = some t →
      lookupLast (stripeParts sig) "v1" = some v1 →
      verifyStripeWebhookRaw secret sig raw =
        Except.ok (timingSafeEqualHex (hmacHex secret (t ++ "." ++ raw)) v1)) :=
  ⟨timingSafeEqualHex_length_ne a b, timingSafeEqualHexSteps_eq_length a b,
    timingSafeEqualHex_eq_true_iff a b,
    fun secret sig raw t v1 hsec ht hv =>
      verifyStripeWebhookRaw_found secret sig raw t v1 hsec ht hv⟩

theorem claim_C2_constant_time_witness :
    timingSafeEqualHex "ab" "abc" = false ∧
    timingSafeEqualHexSteps "ab" "xy" = 2 ∧
    timingSafeEqualHex "ab" "ab" = true ∧
    verifyStripeWebhookRaw "k" "t=1,v1=ab" "body" =
      Except.ok (timingSafeEqualHex (hmacHex "k" ("1" ++ "." ++ "body")) "ab") :=
  ⟨(claim_C2_constant_time "ab" "abc").1 (by decide),
   ((claim_C2_constant_time "ab" "xy").2.1 (by decide)).trans (by decide),
   (claim_C2_constant_time "ab" "ab").2.2.1.mpr rfl,
   (claim_C2_constant_time "" "").2.2.2 "k" "t=1,v1=ab" "body" "1" "ab"
     (by decide) (by decide) (by decide)⟩

/-- C3: Webhook verification correctness — with a non-empty secret and a
signature header carrying both a t and a v1 entry, verifyStripeWebhookRaw
returns true exactly when the lowercase hex HMAC-SHA256 of the string
t ++ "." ++ rawBody (plain concatenation of the untouched raw body) equals
v1; string equality subsumes the length check and the character-for-character
comparison. -/
theorem claim_C3_webhook_iff (secret sig raw t v1 : String) (hsec : secret ≠ "")
    (ht : lookupLast (stripeParts sig) "t" = some t)
    (hv : lookupLast (stripeParts sig) "v1" = some v1) :
    verifyStripeWebhookRaw secret sig raw = Except.ok true ↔
      hmacHex secret (t ++ "." ++ raw) = v1 := by
  rw [verifyStripeWebhookRaw_found secret sig raw t v1 hsec ht hv]
  constructor
  · intro h
    injection h with h
    exact (timingSafeEqualHex_eq_true_iff _ _).mp h
  · intro h
    exact congrArg Except.ok ((timingSafeEqualHex_eq_true_iff _ _).mpr h)

theorem claim_C3_webhook_iff_witness :
    (verifyStripeWebhookRaw "k" "t=1,v1=zz" "body" = Except.ok true ↔
      hmacHex "k" ("1" ++ "." ++ "body") = "zz") :=
  claim_C3_webhook_iff "k" "t=1,v1=zz" "body" "1" "zz" (by decide) (by decide) (by decide)

/-- C4: Cross-order rejection — whenever the token's payload decodes and
parses to a JSON value whose order_id field (after the JS falsy-default to "")
differs from the expected order id (likewise defaulted), verifyReviewToken
returns false, whatever the signature. -/
theorem claim_C4_cross_order (secret token expected_order_id : String) (now : Nat)
    (p : Json) (hp : tokenPayloadJson token = some p)
    (hne : jsToString (jsOr (jsField p "order_id") (Json.str "")) ≠
      (if expected_order_id = "" then "" else expected_order_id)) :
    verifyReviewToken secret token expected_order_id now = false := by
  cases hres : verifyReviewToken secret token expected_order_id now with
  | false => rfl
  | true =>
    obtain ⟨-, a, b, q, hh, -, hdec, -, ho, -⟩ :=
      verifyReviewToken_true_inv secret token expected_order_id now hres
    unfold tokenPayloadJson at hp
    rw [hh] at hp
    have hp2 : (base64urlDecode a).bind jsonParse = some p := hp
    rw [hdec] at hp2
    injection hp2 with hp2
    subst hp2
    exact absurd ho hne

theorem claim_C4_cross_order_witness :
    verifyReviewToken "k"
      (base64urlEncode "\x7b\"order_id\":\"FF-1\"\x7d" ++ ".x") "FF-2" 0 = false :=
  claim_C4_cross_order "k" _ "FF-2" 0 (Json.obj [("order_id", Json.str "FF-1")])
    rfl (by decide)

/-- C5: Expiry — verifyReviewToken returns true only if the decoded payload's
exp field coerces to a number e with now ≤ e; and for any token whose decoded
payload has an exp strictly in the past, verification returns false regardless
of the signature. -/
theorem claim_C5_expiry (secret token oid : String) (now : Nat) :
    (verifyReviewToken secret token oid now = true →
      ∃ p e, tokenPayloadJson token = some p ∧
        jsToNumber (jsOr (jsField p "exp") (Json.num 0)) = some e ∧ (now : Int) ≤ e) ∧
    (∀ p e, tokenPayloadJson token = some p →
      jsToNumber (jsOr (jsField p "exp") (Json.num 0)) = some e → e < (now : Int) →
      verifyReviewToken secret token oid now = false) := by
  constructor
  · intro hres
    obtain ⟨-, a, b, q, hh, -, hdec, -, -, e, he, hle⟩ :=
      verifyReviewToken_true_inv secret token oid now hres
    refine ⟨q, e, ?_, he, hle⟩
    unfold tokenPayloadJson
    rw [hh]
    exact hdec
  · intro p e hp he hlt
    cases hres : verifyReviewToken secret token oid now with
    | false => rfl
    | true =>
      obtain ⟨-, a, b, q, hh, -, hdec, -, -, e2, he2, hle2⟩ :=
        verifyReviewToken_true_inv secret token oid now hres
      unfold tokenPayloadJson at hp
      rw [hh] at hp
      have hp2 : (base64urlDecode a).bind jsonParse = some p := hp
      rw [hdec] at hp2
      injection hp2 with hp2
      subst hp2
      rw [he] at he2
      injection he2 with he2
      subst he2
      omega

theorem claim_C5_expiry_witness :
    (∃ p e, tokenPayloadJson ((createReviewToken "k" "FF-1" "e" 0).toOption.getD "")
        = some p ∧
      jsToNumber (jsOr (jsField p "exp") (Json.num 0)) = some e ∧ ((0 : Nat) : Int) ≤ e) ∧
    verifyReviewToken "k" (base64urlEncode "\x7b\"exp\":5\x7d" ++ ".x") "FF-1" 99
      = false := by
  have h := createReviewToken_ok "k" "FF-1" "e" 0 (by decide)
  refine ⟨(claim_C5_expiry "k" _ "FF-1" 0).1 ?_,
    (claim_C5_expiry "k" _ "FF-1" 99).2 (Json.obj [("exp", Json.num 5)]) 5 rfl
      (by decide) (by decide)⟩
  exact verify_created_token "k" "FF-1" "e" 0 0 (by decide) (by decide) _ (by rw [h]; rfl)

/-- C6: Webhook header fail-closed — with a non-empty secret, if the
comma-separated key=value parse of the signature header yields no t entry or
no v1 entry, verifyStripeWebhookRaw returns ok false (it does not throw), and
the HMAC is never computed (the run counter is zero). -/
theorem claim_C6_header_fail_closed (secret sig raw : String) (hsec : secret ≠ "")
    (hmiss : lookupLast (stripeParts sig) "t" = none ∨
      lookupLast (stripeParts sig) "v1" = none) :
    verifyStripeWebhookRaw secret sig raw = Except.ok false ∧
      stripeHmacRuns secret sig = 0 :=
  ⟨verifyStripeWebhookRaw_missing secret sig raw hsec hmiss,
   stripeHmacRuns_missing secret sig hmiss⟩

theorem claim_C6_header_fail_closed_witness :
    verifyStripeWebhookRaw "k" "t=1700000000" "body" = Except.ok false ∧
      stripeHmacRuns "k" "t=1700000000" = 0 :=
  claim_C6_header_fail_closed "k" "t=1700000000" "body" (by decide)
    (Or.inr (by decide))

/-- C7: Malformed token safety — whenever the token does not split into two
non-empty dot-separated halves, or its payload half fails base64url decoding
or JSON parsing, verifyReviewToken returns false; being Bool-valued, the
verifier signals no exception for any input. -/
theorem claim_C7_malformed_safe (secret token oid : String) (now : Nat)
    (hmal : tokenHalves token = none ∨ tokenPayloadJson token = none) :
    verifyReviewToken secret token oid now = false := by
  cases hres : verifyReviewToken secret token oid now with
  | false => rfl
  | true =>
    obtain ⟨-, a, b, q, hh, -, hdec, -⟩ :=
      verifyReviewToken_true_inv secret token oid now hres
    rcases hmal with h | h
    · rw [hh] at h
      exact absurd h (by simp)
    · unfold tokenPayloadJson at h
      rw [hh] at h
      have h2 : (base64urlDecode a).bind jsonParse = none := h
      rw [hdec] at h2
      exact absurd h2 (by simp)

theorem claim_C7_malformed_safe_witness :
    verifyReviewToken "k" "not-a-valid-token" "FF-1" 0 = false :=
  claim_C7_malformed_safe "k" "not-a-valid-token" "FF-1" 0 (Or.inl (by decide))

/-- C8: Token splitting — the claim as stated is refuted. verifyReviewToken
splits the token on EVERY dot and takes the first two segments as payload and
signature; everything after the second dot is discarded, not treated as part
of the signature half. Hence appending extra dot-separated segments to a
valid token does NOT make verification fail: the amended statement proved
here is that a token with no dot (or an empty half) is rejected, while a
fresh token with an extra dot-separated segment appended still verifies
true. -/
theorem claim_C8_token_splitting (secret oid email junk : String) (now now2 : Nat)
    (hsec : secret ≠ "") (hnow : now2 ≤ now + 45 * 24 * 60 * 60 * 1000) :
    (∀ token, tokenHalves token = none →
      verifyReviewToken secret token oid now2 = false) ∧
    (∀ tok, createReviewToken secret oid email now = Except.ok tok →
      verifyReviewToken secret (tok ++ "." ++ junk) oid now2 = true) :=
  ⟨fun token hh => verifyReviewToken_halves_none secret token oid now2 hh,
   fun tok htok =>
     verify_created_token_junk secret oid email junk now now2 hsec
       (by
         have h2 : reviewTokenWindowMs = 3888000000 := rfl
         omega)
       tok htok⟩

theorem claim_C8_token_splitting_witness :
    verifyReviewToken "k" "nodot" "FF-1" 0 = false ∧
    verifyReviewToken "k"
      (((createReviewToken "k" "FF-1" "e" 0).toOption.getD "") ++ "." ++ "x")
      "FF-1" 0 = true := by
  have h := createReviewToken_ok "k" "FF-1" "e" 0 (by decide)
  have hc := claim_C8_token_splitting "k" "FF-1" "e" "x" 0 0 (by decide) (by decide)
  exact ⟨hc.1 "nodot" (by decide), hc.2 _ (by rw [h]; rfl)⟩

/-- C8 counterexample to the claim as stated: appending an extra
dot-separated segment to a freshly issued valid token leaves verification
succeeding (true), where the claim predicts it would fail. -/
theorem claim_C8_counterexample :
    verifyReviewToken "k"
      (((createReviewToken "k" "FF-1" "a@b.c" 0).toOption.getD "") ++ "." ++ "junk")
      "FF-1" 0 = true := by
  have h := createReviewToken_ok "k" "FF-1" "a@b.c" 0 (by decide)
  exact verify_created_token_junk "k" "FF-1" "a@b.c" "junk" 0 0 (by decide) (by decide)
    _ (by rw [h]; rfl)

/-- C9: Issuance shape — with the secret absent createReviewToken raises the
configuration error; with a non-empty secret it returns
base64url(JSON of the order_id, lowercased email, and exp = now + 45 days)
followed by "." followed by the lowercase hex HMAC-SHA256 of that base64url
payload, and the payload half decodes and parses back to exactly that JSON
object. -/
theorem claim_C9_issuance_shape (secret order_id email : String) (now : Nat) :
    (secret = "" → createReviewToken secret order_id email now =
      Except.error "Missing REVIEW_LINK_SECRET") ∧
    (secret ≠ "" → ∃ payload sigHex,
      createReviewToken secret order_id email now =
        Except.ok (payload ++ "." ++ sigHex) ∧
      payload = base64urlEncode (String.mk (jsonPrint
        (Json.obj [("order_id", Json.str order_id),
          ("email", Json.str (jsToLowerCase email)),
          ("exp", Json.num ((now : Int) + 45 * 24 * 60 * 60 * 1000))]))) ∧
      sigHex = hmacHex secret payload ∧
      (base64urlDecode payload).bind jsonParse =
        some (Json.obj [("order_id", Json.str order_id),
          ("email", Json.str (jsToLowerCase email)),
          ("exp", Json.num ((now : Int) + 45 * 24 * 60 * 60 * 1000))])) := by
  have hw : ((reviewTokenWindowMs : Nat) : Int) = 45 * 24 * 60 * 60 * 1000 := by
    have h2 : reviewTokenWindowMs = 3888000000 := rfl
    rw [h2]
    norm_num
  have hpay : reviewTokenPayload order_id email now =
      Json.obj [("order_id", Json.str order_id),
        ("email", Json.str (jsToLowerCase email)),
        ("exp", Json.num ((now : Int) + 45 * 24 * 60 * 60 * 1000))] := by
    unfold reviewTokenPayload
    rw [hw]
  constructor
  · intro hsec
    unfold createReviewToken
    rw [if_pos hsec]
  · intro hsec
    refine ⟨base64urlEncode (String.mk (jsonPrint (reviewTokenPayload order_id email now))),
      hmacHex secret
        (base64urlEncode (String.mk (jsonPrint (reviewTokenPayload order_id email now)))),
      createReviewToken_ok secret order_id email now hsec, by rw [hpay], rfl, ?_⟩
    rw [base64urlDecode_encode]
    show jsonParse (String.mk (jsonPrint (reviewTokenPayload order_id email now))) = _
    rw [jsonParse_print_payload order_id email now, hpay]

theorem claim_C9_issuance_shape_witness :
    createReviewToken "" "FF-1" "A@B.c" 7 =
      Except.error "Missing REVIEW_LINK_SECRET" ∧
    ∃ payload sigHex,
      createReviewToken "k" "FF-1" "A@B.c" 7 = Except.ok (payload ++ "." ++ sigHex) ∧
      payload = base64urlEncode (String.mk (jsonPrint
        (Json.obj [("order_id", Json.str "FF-1"),
          ("email", Json.str (jsToLowerCase "A@B.c")),
          ("exp", Json.num ((7 : Int) + 45 * 24 * 60 * 60 * 1000))]))) ∧
      sigHex = hmacHex "k" payload ∧
      (base64urlDecode payload).bind jsonParse =
        some (Json.obj [("order_id", Json.str "FF-1"),
          ("email", Json.str (jsToLowerCase "A@B.c")),
          ("exp", Json.num ((7 : Int) + 45 * 24 * 60 * 60 * 1000))]) :=
  ⟨(claim_C9_issuance_shape "" "FF-1" "A@B.c" 7).1 rfl,
   (claim_C9_issuance_shape "k" "FF-1" "A@B.c" 7).2 (by decide)⟩

/-- C10: Missing-secret behavior — with the review-link secret absent,
verifyReviewToken returns false for every token (fail closed, no throw),
whereas createReviewToken and verifyStripeWebhookRaw both raise their
respective configuration errors when their secret is absent. -/
theorem claim_C10_missing_secret (token oid oid2 email sig raw : String)
    (now now2 : Nat) :
    verifyReviewToken "" token oid now = false ∧
    createReviewToken "" oid2 email now2 =
      Except.error "Missing REVIEW_LINK_SECRET" ∧
    verifyStripeWebhookRaw "" sig raw =
      Except.error "Missing STRIPE_WEBHOOK_SECRET" := by
  refine ⟨verifyReviewToken_empty_secret token oid now, ?_, ?_⟩
  · unfold createReviewToken
    rw [if_pos rfl]
  · unfold verifyStripeWebhookRaw
    rw [if_pos rfl]

end FurFusion
